import Mathlib

/-! Shallow embedding of the Fenton-Karma cardiac solver (`src/cardiax/solve.py`)
over exact rational arithmetic.  2D scalar fields are lists of rows of
rationals; every jax/numpy array operation used by the solver is transcribed
as an explicit list operation.  The transcendental `jnp.tanh` is kept as an
explicit function parameter `th`; theorems that depend on it only assume
the strict bounds `-1 < th x < 1` that the mathematical tanh satisfies.
-/

set_option maxHeartbeats 1000000

namespace Cardiax

/-- A 2D scalar field: a list of rows. -/
abbrev Mat := List (List ℚ)

/-- Entry access with default 0 (out-of-range reads never occur in the
theorems, which carry bounds). -/
def nth (l : List ℚ) (i : ℕ) : ℚ := l.getD i 0

/-- 2D entry access. -/
def nth2 (a : Mat) (i j : ℕ) : ℚ := nth (a.getD i []) j

/-- Predicate: `a` is a rectangular `H × W` matrix. -/
def Rect (H W : ℕ) (a : Mat) : Prop := a.length = H ∧ ∀ r ∈ a, r.length = W

instance (H W : ℕ) (a : Mat) : Decidable (Rect H W a) := by
  unfold Rect; infer_instance

/-- The constant `H × W` field with value `c`. -/
def uniformM (H W : ℕ) (c : ℚ) : Mat := List.replicate H (List.replicate W c)

/-- Elementwise map over a field (numpy broadcasting of a scalar function). -/
def mmap (f : ℚ → ℚ) (a : Mat) : Mat := a.map (fun r => r.map f)

/-- Elementwise combination of two fields (numpy binary broadcasting). -/
def mzip (f : ℚ → ℚ → ℚ) (a b : Mat) : Mat :=
  List.zipWith (fun r s => List.zipWith f r s) a b

/-- Elementwise combination of three 1D arrays. -/
def zip3L (f : ℚ → ℚ → ℚ → ℚ) : List ℚ → List ℚ → List ℚ → List ℚ
  | a :: as, b :: bs, c :: cs => f a b c :: zip3L f as bs cs
  | _, _, _ => []

/-- Elementwise combination of three fields. -/
def mzip3 (f : ℚ → ℚ → ℚ → ℚ) (a b c : Mat) : Mat :=
  List.zipWith (fun x yz => zip3L f x yz.1 yz.2) a (b.zip c)

/-- Pad a list by one element on each side replicating the edge values:
the 1D core of `jnp.pad(-, 1, mode="edge")`. -/
def padList {α : Type} : List α → List α
  | [] => []
  | x :: xs => x :: ((x :: xs) ++ [(x :: xs).getLast (by simp)])



/-- Transcription of `jnp.pad(a, 1, mode="edge")` on a 2D array: pad each row, then
replicate the first and last (padded) rows. -/
def pad2 (a : Mat) : Mat := padList (a.map padList)

/-- Transcription of `jax.lax.slice_in_dim(a, lo, hi)` restricted to one axis of a list:
`none` means "from the start"/"to the end", negative indices count from
the end (numpy slice semantics as used by the solver). -/
def slc {α : Type} (a : List α) (lo hi : Option Int) : List α :=
  let n : Int := a.length
  let l : Int := match lo with | none => 0 | some i => if i < 0 then n + i else i
  let h : Int := match hi with | none => n | some i => if i < 0 then n + i else i
  (a.drop l.toNat).take (h - l).toNat

/-- Scalar multiple of a 1D array. -/
def smulL (c : ℚ) (l : List ℚ) : List ℚ := l.map (fun x => c * x)

/-- Elementwise sum of 1D arrays. -/
def addL (x y : List ℚ) : List ℚ := List.zipWith (fun a b => a + b) x y

/-- Elementwise difference of 1D arrays. -/
def subL (x y : List ℚ) : List ℚ := List.zipWith (fun a b => a - b) x y

/-- Scalar multiple of a field. -/
def smulM (c : ℚ) (a : Mat) : Mat := a.map (smulL c)

/-- Elementwise sum of fields. -/
def addM (x y : Mat) : Mat := List.zipWith addL x y

/-- Elementwise difference of fields. -/
def subM (x y : Mat) : Mat := List.zipWith subL x y

/-- The `gradient` of `solve.py` acting on one 1D slice: a 3rd-order one-sided
stencil on the two cells at each edge, the 4th-order central stencil in the
interior, transcribed slice-by-slice from the source (`sliced(0, 2)` is
`slc a 0 2`, `sliced(None, -4)` is `slc a none (-4)`, ...). -/
def grad1 (a : List ℚ) : List ℚ :=
  (addL (subL (addL (smulL (-(11/6)) (slc a (some 0) (some 2)))
                    (smulL 3 (slc a (some 1) (some 3))))
              (smulL (3/2) (slc a (some 2) (some 4))))
        (smulL (1/3) (slc a (some 3) (some 5))))
  ++ (subL (addL (subL (smulL (1/12) (slc a none (some (-4))))
                       (smulL (2/3) (slc a (some 1) (some (-3)))))
                 (smulL (2/3) (slc a (some 3) (some (-1)))))
           (smulL (1/12) (slc a (some 4) none)))
  ++ (addL (subL (addL (smulL (-(1/3)) (slc a (some (-5)) (some (-3))))
                       (smulL (3/2) (slc a (some (-4)) (some (-2)))))
                 (smulL 3 (slc a (some (-3)) (some (-1)))))
           (smulL (11/6) (slc a (some (-2)) none)))

/-- Transcription of `gradient(a, axis=0)`: the same stencil with `slice_in_dim` taking row
blocks (slices of the outer list) and the arithmetic acting elementwise on
whole rows; concatenation is along axis 0. -/
def grad0 (a : Mat) : Mat :=
  (addM (subM (addM (smulM (-(11/6)) (slc a (some 0) (some 2)))
                    (smulM 3 (slc a (some 1) (some 3))))
              (smulM (3/2) (slc a (some 2) (some 4))))
        (smulM (1/3) (slc a (some 3) (some 5))))
  ++ (subM (addM (subM (smulM (1/12) (slc a none (some (-4))))
                       (smulM (2/3) (slc a (some 1) (some (-3)))))
                 (smulM (2/3) (slc a (some 3) (some (-1)))))
           (smulM (1/12) (slc a (some 4) none)))
  ++ (addM (subM (addM (smulM (-(1/3)) (slc a (some (-5)) (some (-3))))
                       (smulM (3/2) (slc a (some (-4)) (some (-2)))))
                 (smulM 3 (slc a (some (-3)) (some (-1)))))
           (smulM (11/6) (slc a (some (-2)) none)))

/-- The full `gradient(a, axis)` of `solve.py`.  Along axis 1, `slice_in_dim`,
the elementwise arithmetic and `concatenate` all act independently on every
row, so the operator is the 1D stencil `grad1` mapped over the rows; along
axis 0 it is the row-block form `grad0`. -/
def gradient (a : Mat) (axis : ℕ) : Mat :=
  if axis = 0 then grad0 a else a.map grad1

/-- Transcription of `a[1:-1, 1:-1]`: trim the ghost cells back off. -/
def crop (a : Mat) : Mat := ((a.drop 1).dropLast).map (fun r => (r.drop 1).dropLast)

/-- The cell-parameter record of the model (`params.CellParameters`). -/
structure Params where
  V_c : ℚ
  V_v : ℚ
  V_csi : ℚ
  tau_d : ℚ
  tau_0 : ℚ
  tau_r : ℚ
  tau_si : ℚ
  tau_v1_minus : ℚ
  tau_v2_minus : ℚ
  tau_v_plus : ℚ
  tau_w_minus : ℚ
  tau_w_plus : ℚ
  k : ℚ
  Cm : ℚ

/-- The simulation state: two gating fields and the potential field. -/
structure State where
  v : Mat
  w : Mat
  u : Mat

/-- A stimulation protocol `(start, duration, period)`. -/
structure Protocol where
  start : ℚ
  duration : ℚ
  period : ℚ

/-- A stimulus: a magnitude field plus its protocol. -/
structure Stimulus where
  protocol : Protocol
  field : Mat

/-- Transcription of `jnp.mod`: floored modulo (the result has the sign of the divisor), on
rationals. -/
def fmod (x y : ℚ) : ℚ := x - y * ⌊x / y⌋

/-- The activation test of `stimulate`: the stimulus has started, and the
current time falls inside the periodic duration window. -/
def activeAt (t : ℚ) (pr : Protocol) : Bool :=
  decide (pr.start ≤ t) &&
    decide (fmod (pr.start - t + 1) pr.period < pr.duration)

/-- Transcription of `stimulate(t, X, stimuli)` of `solve.py`: build the combined stimulus
field by overwriting (`jnp.where` keyed on `field * active` being nonzero),
then overwrite `X` wherever the combined field is nonzero. -/
def stimulate (t : ℚ) (X : Mat) (stimuli : List Stimulus) : Mat :=
  let stimulated := stimuli.foldl
    (fun acc s =>
      let aq : ℚ := if activeAt t s.protocol then 1 else 0
      mzip (fun f a => if f * aq ≠ 0 then f else a) s.field acc)
    (mmap (fun _ => 0) X)
  mzip (fun sc xc => if sc ≠ 0 then sc else xc) stimulated X

/-- Transcription of `step(state, t, params, diffusivity, stimuli, dx)` of `solve.py`: the
right-hand side of the coupled ODE/PDE system, transcribed line by line.
`th` stands for `jnp.tanh`. -/
def step (th : ℚ → ℚ) (P : Params) (state : State) (t : ℚ)
    (diffusivity : Mat) (stimuli : List Stimulus) (dx : ℚ) : State :=
  -- neumann boundary conditions
  let v := pad2 state.v
  let w := pad2 state.w
  let u := pad2 state.u
  let D := pad2 diffusivity
  -- reaction term
  let p := mmap (fun x => if P.V_c ≤ x then 1 else 0) u
  let q := mmap (fun x => if P.V_v ≤ x then 1 else 0) u
  let tau_v_minus :=
    mmap (fun qc => (1 - qc) * P.tau_v1_minus + qc * P.tau_v2_minus) q
  let j_fi := mzip3 (fun vc pc uc =>
    -vc * pc * (uc - P.V_c) * (1 - uc) / P.tau_d) v p u
  let j_so := mzip (fun uc pc =>
    uc * (1 - pc) / P.tau_0 + pc / P.tau_r) u p
  let j_si := mzip (fun wc uc =>
    -(wc * (1 + th (P.k * (uc - P.V_csi)))) / (2 * P.tau_si)) w u
  let j_ion := mzip3 (fun a b c => -(a + b + c) / P.Cm) j_fi j_so j_si
  -- apply stimulus by introducing fictitious current
  let stimuli' := stimuli.map (fun s => { s with field := pad2 s.field })
  let j_ion := stimulate t j_ion stimuli'
  -- diffusion term
  let u_x := mmap (fun x => x / dx) (gradient u 0)
  let u_y := mmap (fun x => x / dx) (gradient u 1)
  let u_xx := mmap (fun x => x / dx) (gradient u_x 0)
  let u_yy := mmap (fun x => x / dx) (gradient u_y 1)
  let D_x := mmap (fun x => x / dx) (gradient D 0)
  let D_y := mmap (fun x => x / dx) (gradient D 1)
  let del_u := addM (mzip (fun a b => a * b) D (addM u_xx u_yy))
    (addM (mzip (fun a b => a * b) D_x u_x) (mzip (fun a b => a * b) D_y u_y))
  let d_v := mzip3 (fun pc vc tvm =>
    (1 - pc) * (1 - vc) / tvm - pc * vc / P.tau_v_plus) p v tau_v_minus
  let d_w := mzip (fun pc wc =>
    (1 - pc) * (1 - wc) / P.tau_w_minus - pc * wc / P.tau_w_plus) p w
  let d_u := addM del_u j_ion
  ⟨crop d_v, crop d_w, crop d_u⟩

/-- Transcription of `jax.tree_multimap(lambda y, dy: y + dy * h, state, grads)`. -/
def treeAxpy (y dy : State) (h : ℚ) : State :=
  ⟨mzip (fun a b => a + b * h) y.v dy.v,
   mzip (fun a b => a + b * h) y.w dy.w,
   mzip (fun a b => a + b * h) y.u dy.u⟩

/-- Transcription of `tree_multimap(add, x, y)` on states. -/
def addState (x y : State) : State :=
  ⟨mzip (fun a b => a + b) x.v y.v,
   mzip (fun a b => a + b) x.w y.w,
   mzip (fun a b => a + b) x.u y.u⟩

/-- Transcription of `step_euler` of `solve.py`. -/
def step_euler (th : ℚ → ℚ) (P : Params) (state : State) (t : ℚ)
    (diffusivity : Mat) (stimuli : List Stimulus) (dt dx : ℚ) : State :=
  let grads := step th P state t diffusivity stimuli dx
  treeAxpy state grads dt

/-- Transcription of `step_heun` of `solve.py`: predictor, tentative Euler advance,
corrector, update by the averaged derivative (`dt * 0.5`). -/
def step_heun (th : ℚ → ℚ) (P : Params) (state : State) (t : ℚ)
    (diffusivity : Mat) (stimuli : List Stimulus) (dt dx : ℚ) : State :=
  let d_state := step th P state t diffusivity stimuli dx
  let new_state := treeAxpy state d_state dt
  let d_new_state := step th P new_state t diffusivity stimuli dx
  treeAxpy state (addState d_state d_new_state) (dt * (1/2))

/-- Transcription of `_forward_euler`: `jax.lax.fori_loop(t, t_end, step_euler ..., state)`,
the loop counter `i` being passed as the time argument. -/
def forwardEulerLoop (th : ℚ → ℚ) (P : Params) (state : State) (t t_end : ℕ)
    (diffusivity : Mat) (stimuli : List Stimulus) (dt dx : ℚ) : State :=
  (List.range' t (t_end - t)).foldl
    (fun s (i : ℕ) => step_euler th P s (i : ℚ) diffusivity stimuli dt dx) state

/-- Transcription of `_forward_heun`: the same loop with `step_heun`. -/
def forwardHeunLoop (th : ℚ → ℚ) (P : Params) (state : State) (t t_end : ℕ)
    (diffusivity : Mat) (stimuli : List Stimulus) (dt dx : ℚ) : State :=
  (List.range' t (t_end - t)).foldl
    (fun s (i : ℕ) => step_heun th P s (i : ℚ) diffusivity stimuli dt dx) state

/-- Outcome of an adaptive integration: either the state at (or past) the
target time, or a reported failure carrying the last valid state and time
reached. -/
inductive DPResult (σ : Type) where
  | ok (y : σ) (t : ℚ)
  | failed (y : σ) (lastT : ℚ)
deriving DecidableEq

/-- Modelled from the spec: the adaptive Dormand-Prince step controller
(the repository's `ode.py` is not under `src/`; only its caller
`_forward_dormandprince` is).  Per spec section 4.6 each iteration computes a
trial step together with a per-step error ratio (`trial`), accepts the step
iff the ratio is at most 1, rescales the step size (`newDt`), and the loop
ends when `t` reaches the target, when the step budget is exhausted, or when
`dt` collapses to a non-positive value — the latter two reported as
integration failures, never returned as an unconverged success. -/
def dopriLoop {σ : Type} (trial : σ → ℚ → ℚ → σ × ℚ) (newDt : ℚ → ℚ → ℚ) :
    ℕ → σ → ℚ → ℚ → ℚ → DPResult σ
  | 0, y, t, _, target => if target ≤ t then .ok y t else .failed y t
  | n + 1, y, t, dt, target =>
    if target ≤ t then .ok y t
    else if dt ≤ 0 then .failed y t
    else
      let yr := trial y t dt
      if yr.2 ≤ 1 then dopriLoop trial newDt n yr.1 (t + dt) (newDt dt yr.2) target
      else dopriLoop trial newDt n y t (newDt dt yr.2) target

/-- Largest absolute value of a field (used by the modelled error norm). -/
def maxAbsM (a : Mat) : ℚ :=
  a.foldl (fun m r => r.foldl (fun m' x => max m' |x|) m) 0

/-- Modelled from the spec: the embedded error estimate of the adaptive
integrator, as the max-norm distance between a higher- and a lower-order
candidate step scaled by a fixed tolerance (the spec's `(rtol, atol)`
controller, section 4.6; the numeric tableau of `ode.py` is not under
`src/`, so the second-order Heun / first-order Euler embedded pair stands
in for the RK45 pair). -/
def dpTrial (th : ℚ → ℚ) (P : Params) (D : Mat) (stim : List Stimulus)
    (dx : ℚ) (y : State) (t dt : ℚ) : State × ℚ :=
  let y2 := step_heun th P y t D stim dt dx
  let y1 := step_euler th P y t D stim dt dx
  let err := max (maxAbsM (subM y2.v y1.v))
    (max (maxAbsM (subM y2.w y1.w)) (maxAbsM (subM y2.u y1.u)))
  (y2, err * 1000000)

/-- Modelled from the spec: step-size rescaling — keep the step on accept,
halve it on reject (the spec's optimal-step-size formula takes an
irrational fifth root, so an equivalent contracting rule stands in). -/
def dpNewDt (dt r : ℚ) : ℚ := if r ≤ 1 then dt else dt / 2

/-- Modelled from the spec: one checkpoint window of the adaptive
integrator, with a fixed step budget, returning the final (or on failure
the last valid) state. -/
def dpWindow (th : ℚ → ℚ) (P : Params) (y : State) (t0 t1 : ℕ) (D : Mat)
    (stim : List Stimulus) (dt dx : ℚ) : State :=
  match dopriLoop (dpTrial th P D stim dx) dpNewDt 1000 y (t0 : ℚ) dt (t1 : ℚ) with
  | .ok y' _ => y'
  | .failed y' _ => y'

/-- The driver loop of `forward`: one integrator call per consecutive
checkpoint pair, appending each resulting state. -/
def forwardLoop (f : State → ℕ → ℕ → State) : State → List ℕ → List State
  | s, c1 :: c2 :: rest =>
    let s' := f s c1 c2
    s' :: forwardLoop f s' (c2 :: rest)
  | _, _ => []

/-- Modelled from the spec: `_forward_dormandprince` hands the whole
checkpoint sequence to the adaptive integrator whose dense output produces
one snapshotted state per consecutive checkpoint pair (spec sections
4.6-4.7). -/
def forwardDormandPrince (th : ℚ → ℚ) (P : Params) (s : State)
    (ts : List ℕ) (D : Mat) (stim : List Stimulus) (dt dx : ℚ) : List State :=
  forwardLoop (fun st a b => dpWindow th P st a b D stim dt dx) s ts

/-- The integrator selector (`class TimeIntegrator(Enum)`). -/
inductive TimeIntegrator where
  | EULER
  | HEUN
  | DORMANDPRINCE
deriving DecidableEq

/-- The per-window advance function each enum member stands for. -/
def windowFn (th : ℚ → ℚ) (P : Params) (D : Mat) (stim : List Stimulus)
    (dt dx : ℚ) : TimeIntegrator → State → ℕ → ℕ → State
  | .EULER => fun s a b => forwardEulerLoop th P s a b D stim dt dx
  | .HEUN => fun s a b => forwardHeunLoop th P s a b D stim dt dx
  | .DORMANDPRINCE => fun s a b => dpWindow th P s a b D stim dt dx

/-- Transcription of `forward` of `solve.py` (the plotting side channel dropped): dispatch on
the integrator enum; the Dormand-Prince member receives the whole checkpoint
sequence, the others are called window by window. -/
def forward (th : ℚ → ℚ) (P : Params) (s : State) (checkpoints : List ℕ)
    (D : Mat) (stim : List Stimulus) (dt dx : ℚ)
    (integrator : TimeIntegrator) : List State :=
  match integrator with
  | .DORMANDPRINCE => forwardDormandPrince th P s checkpoints D stim dt dx
  | .EULER => forwardLoop
      (fun st a b => forwardEulerLoop th P st a b D stim dt dx) s checkpoints
  | .HEUN => forwardLoop
      (fun st a b => forwardHeunLoop th P st a b D stim dt dx) s checkpoints

/-- Transcription of `init(shape)`: the resting state `v = 1, w = 1, u = 0`. -/
def init (shape : ℕ × ℕ) : State :=
  ⟨uniformM shape.1 shape.2 1, uniformM shape.1 shape.2 1,
   uniformM shape.1 shape.2 0⟩

/-- The `.shape` of a list-of-rows field. -/
def shape2 (a : Mat) : ℕ × ℕ := (a.length, (a.headD []).length)

/-- Modelled from the spec: `convert.realsize_to_shape` (the `convert`
module is not under `src/`) — physical tissue size over grid spacing. -/
def realsize_to_shape (tissue_size : ℚ × ℚ) (dx : ℚ) : ℕ × ℕ :=
  ((⌊tissue_size.1 / dx⌋).toNat, (⌊tissue_size.2 / dx⌋).toNat)

/-- Modelled from the spec: `convert.ms_to_units` (the `convert` module is
not under `src/`) — milliseconds over the time step. -/
def ms_to_units (ms dt : ℚ) : ℕ := (⌊ms / dt⌋).toNat

/-- Transcription of `jnp.arange(start, stop, step)` over naturals. -/
def arangeN (start stop stepb : ℕ) : List ℕ :=
  if stepb = 0 then []
  else List.range' start ((stop - start + stepb - 1) / stepb) stepb

/-- Transcription of `forward_dimensional` of `solve.py`: compute the grid shape, check the
diffusivity and stimulus shapes against it (the source's `assert`
statements, modelled as an `Except` error), then build the resting state
and the checkpoints and hand off to `forward`. -/
def forward_dimensional (th : ℚ → ℚ) (P : Params) (tissue_size : ℚ × ℚ)
    (final_time ms_step : ℚ) (D : Mat) (stim : List Stimulus) (dt dx : ℚ)
    (integrator : TimeIntegrator) : Except String (List State) :=
  let shape := realsize_to_shape tissue_size dx
  let start := 0
  let stop := ms_to_units final_time dt
  let stepc := ms_to_units ms_step dt
  if shape ≠ shape2 D then .error "diffusivity shape mismatch"
  else if ¬ (stim.all (fun s => shape2 s.field = shape)) then
    .error "stimulus shape mismatch"
  else
    let state := init shape
    let checkpoints := arangeN start stop stepc
    .ok (forward th P state checkpoints D stim dt dx integrator)

/-- The per-cell value of `step` on a spatially uniform state with zero
diffusivity and no effective stimulus: the reaction terms of `step`
evaluated at a single cell `(v, w, u) = (a, b, c)`. -/
def scalarDeriv (th : ℚ → ℚ) (P : Params) (a b c : ℚ) : ℚ × ℚ × ℚ :=
  let p : ℚ := if P.V_c ≤ c then 1 else 0
  let q : ℚ := if P.V_v ≤ c then 1 else 0
  let tau_v_minus := (1 - q) * P.tau_v1_minus + q * P.tau_v2_minus
  let j_fi := -a * p * (c - P.V_c) * (1 - c) / P.tau_d
  let j_so := c * (1 - p) / P.tau_0 + p / P.tau_r
  let j_si := -(b * (1 + th (P.k * (c - P.V_csi)))) / (2 * P.tau_si)
  let j_ion := -(j_fi + j_so + j_si) / P.Cm
  ((1 - p) * (1 - a) / tau_v_minus - p * a / P.tau_v_plus,
   (1 - p) * (1 - b) / P.tau_w_minus - p * b / P.tau_w_plus,
   j_ion)

/-- One Euler step of the per-cell dynamics. -/
def scalarEuler (th : ℚ → ℚ) (P : Params) (dt : ℚ) (x : ℚ × ℚ × ℚ) :
    ℚ × ℚ × ℚ :=
  let d := scalarDeriv th P x.1 x.2.1 x.2.2
  (x.1 + d.1 * dt, x.2.1 + d.2.1 * dt, x.2.2 + d.2.2 * dt)

/-- The empty placeholder state used as the `getD` default. -/
def dState : State := ⟨[], [], []⟩

/-- The consecutive checkpoint pairs the driver integrates over. -/
def ckptPairs (cs : List ℕ) : List (ℕ × ℕ) := cs.zip cs.tail

/-- The state reached by integrating a prefix of checkpoint windows. -/
def integrateWindows (f : State → ℕ → ℕ → State) (s : State)
    (ps : List (ℕ × ℕ)) : State :=
  ps.foldl (fun st p => f st p.1 p.2) s

/-- The uniform state whose three fields hold the three components of a
single cell value. -/
def uniformState (H W : ℕ) (x : ℚ × ℚ × ℚ) : State :=
  ⟨uniformM H W x.1, uniformM H W x.2.1, uniformM H W x.2.2⟩

/-- One Heun step of the per-cell dynamics, mirroring `step_heun`. -/
def scalarHeun (th : ℚ → ℚ) (P : Params) (dt : ℚ) (x : ℚ × ℚ × ℚ) :
    ℚ × ℚ × ℚ :=
  let d := scalarDeriv th P x.1 x.2.1 x.2.2
  let y := (x.1 + d.1 * dt, x.2.1 + d.2.1 * dt, x.2.2 + d.2.2 * dt)
  let d2 := scalarDeriv th P y.1 y.2.1 y.2.2
  (x.1 + (d.1 + d2.1) * (dt * (1 / 2)),
   x.2.1 + (d.2.1 + d2.2.1) * (dt * (1 / 2)),
   x.2.2 + (d.2.2 + d2.2.2) * (dt * (1 / 2)))

/-- A concrete rational sigmoid standing in for `jnp.tanh` when a closed
evaluation is needed: like the mathematical tanh it is strictly between
-1 and 1 everywhere, which is the only property the resting-state analysis
uses. -/
def tanhQ (x : ℚ) : ℚ := x / (1 + |x|)

section UniformLemmas

lemma mmap_uniform (f : ℚ → ℚ) (H W : ℕ) (c : ℚ) :
    mmap f (uniformM H W c) = uniformM H W (f c) := by
  simp [mmap, uniformM]

lemma mzip_uniform (f : ℚ → ℚ → ℚ) (H W : ℕ) (a b : ℚ) :
    mzip f (uniformM H W a) (uniformM H W b) = uniformM H W (f a b) := by
  simp [mzip, uniformM]

lemma zip3L_replicate (f : ℚ → ℚ → ℚ → ℚ) (a b c : ℚ) :
    ∀ n, zip3L f (List.replicate n a) (List.replicate n b)
      (List.replicate n c) = List.replicate n (f a b c) := by
  intro n
  induction n with
  | zero => simp [zip3L]
  | succ m ih => simpa [List.replicate_succ, zip3L] using ih

lemma mzip3_uniform (f : ℚ → ℚ → ℚ → ℚ) (H W : ℕ) (a b c : ℚ) :
    mzip3 f (uniformM H W a) (uniformM H W b) (uniformM H W c) =
      uniformM H W (f a b c) := by
  simp [mzip3, uniformM, zip3L_replicate]

lemma padList_replicate {α : Type} (n : ℕ) (hn : 1 ≤ n) (x : α) :
    padList (List.replicate n x) = List.replicate (n + 2) x := by
  obtain ⟨m, rfl⟩ : ∃ m, n = m + 1 := ⟨n - 1, by omega⟩
  rw [List.replicate_succ]
  simp only [padList]
  have hg : ∀ (w : x :: List.replicate m x ≠ []),
      (x :: List.replicate m x).getLast w = x := by
    intro w
    show (List.replicate (m + 1) x).getLast (by simp) = x
    exact List.getLast_replicate _
  rw [hg]
  show x :: ((x :: List.replicate m x) ++ [x]) = x :: x :: List.replicate (m + 1) x
  rw [List.replicate_succ']
  rfl

lemma pad2_uniform (H W : ℕ) (hH : 1 ≤ H) (hW : 1 ≤ W) (c : ℚ) :
    pad2 (uniformM H W c) = uniformM (H + 2) (W + 2) c := by
  unfold pad2 uniformM
  rw [List.map_replicate, padList_replicate W hW, padList_replicate H hH]

lemma crop_uniform (H W : ℕ) (c : ℚ) :
    crop (uniformM (H + 2) (W + 2) c) = uniformM H W c := by
  unfold crop uniformM
  simp [List.dropLast_replicate]

end UniformLemmas

section SliceLemmas

variable {α : Type}

lemma nth_lt (l : List ℚ) (i : ℕ) (h : i < l.length) : nth l i = l[i] := by
  simp [nth, List.getD_eq_getElem?_getD, List.getElem?_eq_getElem h]

lemma slc02 (a : List α) : slc a (some 0) (some 2) = a.take 2 := by
  simp [slc]

lemma slc13 (a : List α) : slc a (some 1) (some 3) = (a.drop 1).take 2 := by
  simp [slc]

lemma slc24 (a : List α) : slc a (some 2) (some 4) = (a.drop 2).take 2 := by
  simp [slc]

lemma slc35 (a : List α) : slc a (some 3) (some 5) = (a.drop 3).take 2 := by
  simp [slc]

lemma slcN4 (a : List α) :
    slc a none (some (-4)) = a.take (a.length - 4) := by
  simp only [slc]
  norm_num
  omega

lemma slc1m3 (a : List α) :
    slc a (some 1) (some (-3)) = (a.drop 1).take (a.length - 4) := by
  simp only [slc]
  norm_num
  congr 1
  omega

lemma slc3m1 (a : List α) :
    slc a (some 3) (some (-1)) = (a.drop 3).take (a.length - 4) := by
  simp only [slc]
  norm_num
  congr 1
  omega

lemma slc4N (a : List α) :
    slc a (some 4) none = (a.drop 4).take (a.length - 4) := by
  simp only [slc]
  norm_num
  congr 1
  omega

lemma slcm5m3 (a : List α) :
    slc a (some (-5)) (some (-3)) = (a.drop (a.length - 5)).take 2 := by
  simp only [slc]
  norm_num
  congr 2
  omega

lemma slcm4m2 (a : List α) :
    slc a (some (-4)) (some (-2)) = (a.drop (a.length - 4)).take 2 := by
  simp only [slc]
  norm_num
  congr 2
  omega

lemma slcm3m1 (a : List α) :
    slc a (some (-3)) (some (-1)) = (a.drop (a.length - 3)).take 2 := by
  simp only [slc]
  norm_num
  congr 2
  omega

lemma slcm2N (a : List α) :
    slc a (some (-2)) none = (a.drop (a.length - 2)).take 2 := by
  simp only [slc]
  norm_num
  congr 2
  omega

end SliceLemmas

section GradientLemmas

/-- Rewriting of `grad1` with all twelve slices rewritten to `drop`/`take` form. -/
lemma grad1_eq (a : List ℚ) :
    grad1 a =
      (addL (subL (addL (smulL (-(11/6)) (a.take 2))
                        (smulL 3 ((a.drop 1).take 2)))
                  (smulL (3/2) ((a.drop 2).take 2)))
            (smulL (1/3) ((a.drop 3).take 2)))
      ++ ((subL (addL (subL (smulL (1/12) (a.take (a.length - 4)))
                            (smulL (2/3) ((a.drop 1).take (a.length - 4))))
                      (smulL (2/3) ((a.drop 3).take (a.length - 4))))
                (smulL (1/12) ((a.drop 4).take (a.length - 4))))
      ++ (addL (subL (addL (smulL (-(1/3)) ((a.drop (a.length - 5)).take 2))
                           (smulL (3/2) ((a.drop (a.length - 4)).take 2)))
                     (smulL 3 ((a.drop (a.length - 3)).take 2)))
               (smulL (11/6) ((a.drop (a.length - 2)).take 2)))) := by
  rw [grad1, slc02, slc13, slc24, slc35, slcN4, slc1m3, slc3m1, slc4N,
    slcm5m3, slcm4m2, slcm3m1, slcm2N, List.append_assoc]

lemma grad1_length (a : List ℚ) (h5 : 5 ≤ a.length) :
    (grad1 a).length = a.length := by
  rw [grad1_eq]
  simp only [addL, subL, smulL, List.length_zipWith, List.length_map, List.length_take,
    List.length_drop, List.length_append]
  omega

lemma grad1_nth_left (a : List ℚ) (h5 : 5 ≤ a.length) (i : ℕ) (hi : i < 2) :
    nth (grad1 a) i =
      -(11/6) * nth a i + 3 * nth a (i + 1) - (3/2) * nth a (i + 2)
        + (1/3) * nth a (i + 3) := by
  rw [grad1_eq]
  have l1 : (addL (subL (addL (smulL (-(11/6)) (a.take 2))
      (smulL 3 ((a.drop 1).take 2))) (smulL (3/2) ((a.drop 2).take 2)))
      (smulL (1/3) ((a.drop 3).take 2))).length = 2 := by
    simp only [addL, subL, smulL, List.length_zipWith, List.length_map, List.length_take,
    List.length_drop, List.length_append]
    omega
  rw [nth, List.getD_append _ _ _ _ (by rw [l1]; omega), ← nth]
  rw [nth_lt _ _ (by rw [l1]; omega)]
  simp only [addL, subL, smulL, List.getElem_zipWith, List.getElem_map,
    List.getElem_take, List.getElem_drop]
  rw [nth_lt _ _ (by omega), nth_lt _ _ (by omega), nth_lt _ _ (by omega),
    nth_lt _ _ (by omega)]
  have e1 : 1 + i = i + 1 := by omega
  have e2 : 2 + i = i + 2 := by omega
  have e3 : 3 + i = i + 3 := by omega
  simp_rw [e1, e2, e3]

lemma grad1_nth_mid (a : List ℚ) (h5 : 5 ≤ a.length) (i : ℕ)
    (hi : 2 ≤ i) (hi' : i < a.length - 2) :
    nth (grad1 a) i =
      (1/12) * nth a (i - 2) - (2/3) * nth a (i - 1) + (2/3) * nth a (i + 1)
        - (1/12) * nth a (i + 2) := by
  rw [grad1_eq]
  have l1 : (addL (subL (addL (smulL (-(11/6)) (a.take 2))
      (smulL 3 ((a.drop 1).take 2))) (smulL (3/2) ((a.drop 2).take 2)))
      (smulL (1/3) ((a.drop 3).take 2))).length = 2 := by
    simp only [addL, subL, smulL, List.length_zipWith, List.length_map, List.length_take,
    List.length_drop, List.length_append]
    omega
  have l2 : (subL (addL (subL (smulL (1/12) (a.take (a.length - 4)))
      (smulL (2/3) ((a.drop 1).take (a.length - 4))))
      (smulL (2/3) ((a.drop 3).take (a.length - 4))))
      (smulL (1/12) ((a.drop 4).take (a.length - 4)))).length = a.length - 4 := by
    simp only [addL, subL, smulL, List.length_zipWith, List.length_map, List.length_take,
    List.length_drop, List.length_append]
    omega
  rw [nth, List.getD_append_right _ _ _ _ (by rw [l1]; omega), l1,
    List.getD_append _ _ _ _ (by rw [l2]; omega), ← nth]
  rw [nth_lt _ _ (by rw [l2]; omega)]
  simp only [subL, addL, smulL, List.getElem_zipWith, List.getElem_map,
    List.getElem_take, List.getElem_drop]
  rw [nth_lt _ _ (by omega), nth_lt _ _ (by omega), nth_lt _ _ (by omega),
    nth_lt _ _ (by omega)]
  have e2 : 1 + (i - 2) = i - 1 := by omega
  have e3 : 3 + (i - 2) = i + 1 := by omega
  have e4 : 4 + (i - 2) = i + 2 := by omega
  simp_rw [e2, e3, e4]

lemma grad1_nth_right (a : List ℚ) (h5 : 5 ≤ a.length) (i : ℕ)
    (hi : a.length - 2 ≤ i) (hi' : i < a.length) :
    nth (grad1 a) i =
      -(1/3) * nth a (i - 3) + (3/2) * nth a (i - 2) - 3 * nth a (i - 1)
        + (11/6) * nth a i := by
  rw [grad1_eq]
  have l1 : (addL (subL (addL (smulL (-(11/6)) (a.take 2))
      (smulL 3 ((a.drop 1).take 2))) (smulL (3/2) ((a.drop 2).take 2)))
      (smulL (1/3) ((a.drop 3).take 2))).length = 2 := by
    simp only [addL, subL, smulL, List.length_zipWith, List.length_map, List.length_take,
    List.length_drop, List.length_append]
    omega
  have l2 : (subL (addL (subL (smulL (1/12) (a.take (a.length - 4)))
      (smulL (2/3) ((a.drop 1).take (a.length - 4))))
      (smulL (2/3) ((a.drop 3).take (a.length - 4))))
      (smulL (1/12) ((a.drop 4).take (a.length - 4)))).length = a.length - 4 := by
    simp only [addL, subL, smulL, List.length_zipWith, List.length_map, List.length_take,
    List.length_drop, List.length_append]
    omega
  have l3 : (addL (subL (addL (smulL (-(1/3)) ((a.drop (a.length - 5)).take 2))
      (smulL (3/2) ((a.drop (a.length - 4)).take 2)))
      (smulL 3 ((a.drop (a.length - 3)).take 2)))
      (smulL (11/6) ((a.drop (a.length - 2)).take 2))).length = 2 := by
    simp only [addL, subL, smulL, List.length_zipWith, List.length_map, List.length_take,
    List.length_drop, List.length_append]
    omega
  rw [nth, List.getD_append_right _ _ _ _ (by rw [l1]; omega), l1,
    List.getD_append_right _ _ _ _ (by rw [l2]; omega), l2, ← nth]
  rw [nth_lt _ _ (by rw [l3]; omega)]
  simp only [addL, subL, smulL, List.getElem_zipWith, List.getElem_map,
    List.getElem_take, List.getElem_drop]
  rw [nth_lt _ _ (by omega), nth_lt _ _ (by omega), nth_lt _ _ (by omega),
    nth_lt _ _ (by omega)]
  have e1 : a.length - 5 + (i - 2 - (a.length - 4)) = i - 3 := by omega
  have e2 : a.length - 4 + (i - 2 - (a.length - 4)) = i - 2 := by omega
  have e3 : a.length - 3 + (i - 2 - (a.length - 4)) = i - 1 := by omega
  have e4 : a.length - 2 + (i - 2 - (a.length - 4)) = i := by omega
  simp_rw [e1, e2, e3, e4]

lemma nth_replicate (n : ℕ) (c : ℚ) (i : ℕ) (h : i < n) :
    nth (List.replicate n c) i = c := by
  rw [nth_lt _ _ (by simpa using h)]
  exact List.getElem_replicate _ _

lemma grad1_replicate (n : ℕ) (h5 : 5 ≤ n) (c : ℚ) :
    grad1 (List.replicate n c) = List.replicate n 0 := by
  have hlen : (grad1 (List.replicate n c)).length = n := by
    rw [grad1_length _ (by simpa using h5)]
    simp
  apply List.ext_getElem (by simp [hlen])
  intro i h1 h2
  have hin : i < n := by
    have h1' := h1
    rw [hlen] at h1'
    exact h1'
  rw [← nth_lt _ _ h1, List.getElem_replicate]
  rcases lt_or_le i 2 with hc | hc
  · rw [grad1_nth_left _ (by simpa using h5) _ hc,
      nth_replicate _ _ _ (by omega), nth_replicate _ _ _ (by omega),
      nth_replicate _ _ _ (by omega), nth_replicate _ _ _ (by omega)]
    ring
  · rcases lt_or_le i (n - 2) with hc' | hc'
    · rw [grad1_nth_mid _ (by simpa using h5) _ (by omega) (by simpa using hc'),
        nth_replicate _ _ _ (by omega), nth_replicate _ _ _ (by omega),
        nth_replicate _ _ _ (by omega), nth_replicate _ _ _ (by omega)]
      ring
    · rw [grad1_nth_right _ (by simpa using h5) _ (by simpa using hc')
        (by simpa using hin), nth_replicate _ _ _ (by omega),
        nth_replicate _ _ _ (by omega), nth_replicate _ _ _ (by omega),
        nth_replicate _ _ _ (by omega)]
      ring

lemma nth_addL (x y : List ℚ) (j : ℕ) (hx : j < x.length) (hy : j < y.length) :
    nth (addL x y) j = nth x j + nth y j := by
  rw [nth_lt _ _ (by simp [addL]; omega), nth_lt _ _ hx, nth_lt _ _ hy]
  simp [addL, List.getElem_zipWith]

lemma nth_subL (x y : List ℚ) (j : ℕ) (hx : j < x.length) (hy : j < y.length) :
    nth (subL x y) j = nth x j - nth y j := by
  rw [nth_lt _ _ (by simp [subL]; omega), nth_lt _ _ hx, nth_lt _ _ hy]
  simp [subL, List.getElem_zipWith]

lemma nth_smulL (c : ℚ) (x : List ℚ) (j : ℕ) (hx : j < x.length) :
    nth (smulL c x) j = c * nth x j := by
  rw [nth_lt _ _ (by simp [smulL]; omega), nth_lt _ _ hx]
  simp [smulL]

lemma length_addL (x y : List ℚ) : (addL x y).length = min x.length y.length := by
  simp [addL]

lemma length_subL (x y : List ℚ) : (subL x y).length = min x.length y.length := by
  simp [subL]

lemma length_smulL (c : ℚ) (x : List ℚ) : (smulL c x).length = x.length := by
  simp [smulL]

/-- Row `i` of every rectangular matrix has the expected width. -/
lemma rect_row {H W : ℕ} {a : Mat} (hR : Rect H W a) (i : ℕ) (hi : i < H) :
    (a.getD i []).length = W := by
  obtain ⟨hl, hr⟩ := hR
  have hia : i < a.length := by omega
  rw [List.getD_eq_getElem?_getD, List.getElem?_eq_getElem hia]
  exact hr _ (List.getElem_mem hia)

/-- Rewriting of `grad0` with all twelve row slices rewritten to `drop`/`take` form. -/
lemma grad0_eq (a : Mat) :
    grad0 a =
      (addM (subM (addM (smulM (-(11/6)) (a.take 2))
                        (smulM 3 ((a.drop 1).take 2)))
                  (smulM (3/2) ((a.drop 2).take 2)))
            (smulM (1/3) ((a.drop 3).take 2)))
      ++ ((subM (addM (subM (smulM (1/12) (a.take (a.length - 4)))
                            (smulM (2/3) ((a.drop 1).take (a.length - 4))))
                      (smulM (2/3) ((a.drop 3).take (a.length - 4))))
                (smulM (1/12) ((a.drop 4).take (a.length - 4))))
      ++ (addM (subM (addM (smulM (-(1/3)) ((a.drop (a.length - 5)).take 2))
                           (smulM (3/2) ((a.drop (a.length - 4)).take 2)))
                     (smulM 3 ((a.drop (a.length - 3)).take 2)))
               (smulM (11/6) ((a.drop (a.length - 2)).take 2)))) := by
  rw [grad0, slc02, slc13, slc24, slc35, slcN4, slc1m3, slc3m1, slc4N,
    slcm5m3, slcm4m2, slcm3m1, slcm2N, List.append_assoc]

lemma grad0_length (a : Mat) (h5 : 5 ≤ a.length) :
    (grad0 a).length = a.length := by
  rw [grad0_eq]
  simp only [addM, subM, smulM, List.length_zipWith, List.length_map,
    List.length_take, List.length_drop, List.length_append]
  omega

lemma grad0_row_left (a : Mat) (h5 : 5 ≤ a.length) (i : ℕ) (hi : i < 2) :
    (grad0 a).getD i [] =
      addL (subL (addL (smulL (-(11/6)) (a.getD i []))
                       (smulL 3 (a.getD (i + 1) [])))
                 (smulL (3/2) (a.getD (i + 2) [])))
           (smulL (1/3) (a.getD (i + 3) [])) := by
  rw [grad0_eq]
  have l1 : (addM (subM (addM (smulM (-(11/6)) (a.take 2))
      (smulM 3 ((a.drop 1).take 2))) (smulM (3/2) ((a.drop 2).take 2)))
      (smulM (1/3) ((a.drop 3).take 2))).length = 2 := by
    simp only [addM, subM, smulM, List.length_zipWith, List.length_map,
      List.length_take, List.length_drop]
    omega
  rw [List.getD_append _ _ _ _ (by rw [l1]; omega)]
  rw [List.getD_eq_getElem?_getD, List.getElem?_eq_getElem (by rw [l1]; omega)]
  simp only [addM, subM, smulM, List.getElem_zipWith, List.getElem_map,
    List.getElem_take, List.getElem_drop, Option.getD_some]
  rw [List.getD_eq_getElem?_getD a i, List.getElem?_eq_getElem (by omega),
    List.getD_eq_getElem?_getD a (i + 1), List.getElem?_eq_getElem (by omega),
    List.getD_eq_getElem?_getD a (i + 2), List.getElem?_eq_getElem (by omega),
    List.getD_eq_getElem?_getD a (i + 3), List.getElem?_eq_getElem (by omega)]
  have e1 : 1 + i = i + 1 := by omega
  have e2 : 2 + i = i + 2 := by omega
  have e3 : 3 + i = i + 3 := by omega
  simp_rw [e1, e2, e3, Option.getD_some]

lemma grad0_row_mid (a : Mat) (h5 : 5 ≤ a.length) (i : ℕ)
    (hi : 2 ≤ i) (hi' : i < a.length - 2) :
    (grad0 a).getD i [] =
      subL (addL (subL (smulL (1/12) (a.getD (i - 2) []))
                       (smulL (2/3) (a.getD (i - 1) [])))
                 (smulL (2/3) (a.getD (i + 1) [])))
           (smulL (1/12) (a.getD (i + 2) [])) := by
  rw [grad0_eq]
  have l1 : (addM (subM (addM (smulM (-(11/6)) (a.take 2))
      (smulM 3 ((a.drop 1).take 2))) (smulM (3/2) ((a.drop 2).take 2)))
      (smulM (1/3) ((a.drop 3).take 2))).length = 2 := by
    simp only [addM, subM, smulM, List.length_zipWith, List.length_map,
      List.length_take, List.length_drop]
    omega
  have l2 : (subM (addM (subM (smulM (1/12) (a.take (a.length - 4)))
      (smulM (2/3) ((a.drop 1).take (a.length - 4))))
      (smulM (2/3) ((a.drop 3).take (a.length - 4))))
      (smulM (1/12) ((a.drop 4).take (a.length - 4)))).length = a.length - 4 := by
    simp only [addM, subM, smulM, List.length_zipWith, List.length_map,
      List.length_take, List.length_drop]
    omega
  rw [List.getD_append_right _ _ _ _ (by rw [l1]; omega), l1,
    List.getD_append _ _ _ _ (by rw [l2]; omega)]
  rw [List.getD_eq_getElem?_getD, List.getElem?_eq_getElem (by rw [l2]; omega)]
  simp only [subM, addM, smulM, List.getElem_zipWith, List.getElem_map,
    List.getElem_take, List.getElem_drop, Option.getD_some]
  rw [List.getD_eq_getElem?_getD a (i - 2), List.getElem?_eq_getElem (by omega),
    List.getD_eq_getElem?_getD a (i - 1), List.getElem?_eq_getElem (by omega),
    List.getD_eq_getElem?_getD a (i + 1), List.getElem?_eq_getElem (by omega),
    List.getD_eq_getElem?_getD a (i + 2), List.getElem?_eq_getElem (by omega)]
  have e2 : 1 + (i - 2) = i - 1 := by omega
  have e3 : 3 + (i - 2) = i + 1 := by omega
  have e4 : 4 + (i - 2) = i + 2 := by omega
  simp_rw [e2, e3, e4, Option.getD_some]

lemma grad0_row_right (a : Mat) (h5 : 5 ≤ a.length) (i : ℕ)
    (hi : a.length - 2 ≤ i) (hi' : i < a.length) :
    (grad0 a).getD i [] =
      addL (subL (addL (smulL (-(1/3)) (a.getD (i - 3) []))
                       (smulL (3/2) (a.getD (i - 2) [])))
                 (smulL 3 (a.getD (i - 1) [])))
           (smulL (11/6) (a.getD i [])) := by
  rw [grad0_eq]
  have l1 : (addM (subM (addM (smulM (-(11/6)) (a.take 2))
      (smulM 3 ((a.drop 1).take 2))) (smulM (3/2) ((a.drop 2).take 2)))
      (smulM (1/3) ((a.drop 3).take 2))).length = 2 := by
    simp only [addM, subM, smulM, List.length_zipWith, List.length_map,
      List.length_take, List.length_drop]
    omega
  have l2 : (subM (addM (subM (smulM (1/12) (a.take (a.length - 4)))
      (smulM (2/3) ((a.drop 1).take (a.length - 4))))
      (smulM (2/3) ((a.drop 3).take (a.length - 4))))
      (smulM (1/12) ((a.drop 4).take (a.length - 4)))).length = a.length - 4 := by
    simp only [addM, subM, smulM, List.length_zipWith, List.length_map,
      List.length_take, List.length_drop]
    omega
  have l3 : (addM (subM (addM (smulM (-(1/3)) ((a.drop (a.length - 5)).take 2))
      (smulM (3/2) ((a.drop (a.length - 4)).take 2)))
      (smulM 3 ((a.drop (a.length - 3)).take 2)))
      (smulM (11/6) ((a.drop (a.length - 2)).take 2))).length = 2 := by
    simp only [addM, subM, smulM, List.length_zipWith, List.length_map,
      List.length_take, List.length_drop]
    omega
  rw [List.getD_append_right _ _ _ _ (by rw [l1]; omega), l1,
    List.getD_append_right _ _ _ _ (by rw [l2]; omega), l2]
  rw [List.getD_eq_getElem?_getD, List.getElem?_eq_getElem (by rw [l3]; omega)]
  simp only [addM, subM, smulM, List.getElem_zipWith, List.getElem_map,
    List.getElem_take, List.getElem_drop, Option.getD_some]
  rw [List.getD_eq_getElem?_getD a (i - 3), List.getElem?_eq_getElem (by omega),
    List.getD_eq_getElem?_getD a (i - 2), List.getElem?_eq_getElem (by omega),
    List.getD_eq_getElem?_getD a (i - 1), List.getElem?_eq_getElem (by omega),
    List.getD_eq_getElem?_getD a i, List.getElem?_eq_getElem (by omega)]
  have e1 : a.length - 5 + (i - 2 - (a.length - 4)) = i - 3 := by omega
  have e2 : a.length - 4 + (i - 2 - (a.length - 4)) = i - 2 := by omega
  have e3 : a.length - 3 + (i - 2 - (a.length - 4)) = i - 1 := by omega
  have e4 : a.length - 2 + (i - 2 - (a.length - 4)) = i := by omega
  simp_rw [e1, e2, e3, e4, Option.getD_some]

lemma getD_lt {α : Type} (l : List α) (d : α) (i : ℕ) (h : i < l.length) :
    l.getD i d = l[i] := by
  simp [List.getD_eq_getElem?_getD, List.getElem?_eq_getElem h]

lemma mat_ext_row (a b : Mat) (hl : a.length = b.length)
    (h : ∀ i, i < a.length → a.getD i [] = b.getD i []) : a = b := by
  apply List.ext_getElem hl
  intro i h1 h2
  rw [← getD_lt a [] i h1, ← getD_lt b [] i h2]
  exact h i h1

lemma addL_replicate (W : ℕ) (x y : ℚ) :
    addL (List.replicate W x) (List.replicate W y) = List.replicate W (x + y) :=
  List.zipWith_replicate'

lemma subL_replicate (W : ℕ) (x y : ℚ) :
    subL (List.replicate W x) (List.replicate W y) = List.replicate W (x - y) :=
  List.zipWith_replicate'

lemma smulL_replicate (c : ℚ) (W : ℕ) (x : ℚ) :
    smulL c (List.replicate W x) = List.replicate W (c * x) :=
  List.map_replicate

lemma grad0_uniform (H W : ℕ) (h5 : 5 ≤ H) (c : ℚ) :
    grad0 (uniformM H W c) = uniformM H W 0 := by
  have hlen : (uniformM H W c).length = H := by simp [uniformM]
  apply mat_ext_row
  · rw [grad0_length _ (by omega), hlen]
    simp [uniformM]
  · intro i hi
    rw [grad0_length _ (by omega), hlen] at hi
    have hrow : ∀ m, m < H → (uniformM H W c).getD m [] = List.replicate W c := by
      intro m hm
      rw [getD_lt _ _ _ (by omega)]
      simp [uniformM]
    have hrow0 : ∀ m, m < H → (uniformM H W 0).getD m [] = List.replicate W 0 := by
      intro m hm
      rw [getD_lt _ _ _ (by simp [uniformM]; omega)]
      simp [uniformM]
    rw [hrow0 _ hi]
    rcases lt_or_le i 2 with hc | hc
    · rw [grad0_row_left _ (by omega) _ hc, hrow _ (by omega), hrow _ (by omega),
        hrow _ (by omega), hrow _ (by omega)]
      simp only [smulL_replicate, addL_replicate, subL_replicate]
      congr 1
      ring
    · rcases lt_or_le i (H - 2) with hc' | hc'
      · rw [grad0_row_mid _ (by omega) _ (by omega) (by omega), hrow _ (by omega),
          hrow _ (by omega), hrow _ (by omega), hrow _ (by omega)]
        simp only [smulL_replicate, addL_replicate, subL_replicate]
        congr 1
        ring
      · rw [grad0_row_right _ (by omega) _ (by omega) (by omega), hrow _ (by omega),
          hrow _ (by omega), hrow _ (by omega), hrow _ (by omega)]
        simp only [smulL_replicate, addL_replicate, subL_replicate]
        congr 1
        ring

lemma gradient_uniform (H W : ℕ) (hH : 5 ≤ H) (hW : 5 ≤ W) (c : ℚ)
    (axis : ℕ) : gradient (uniformM H W c) axis = uniformM H W 0 := by
  unfold gradient
  rcases eq_or_ne axis 0 with h | h
  · rw [if_pos h]
    exact grad0_uniform H W hH c
  · rw [if_neg h]
    unfold uniformM
    rw [List.map_replicate, grad1_replicate _ hW]

lemma nth_combo1 (r0 r1 r2 r3 : List ℚ) (c0 c1 c2 c3 : ℚ) (j : ℕ)
    (h0 : j < r0.length) (h1 : j < r1.length) (h2 : j < r2.length)
    (h3 : j < r3.length) :
    nth (addL (subL (addL (smulL c0 r0) (smulL c1 r1)) (smulL c2 r2))
      (smulL c3 r3)) j
      = c0 * nth r0 j + c1 * nth r1 j - c2 * nth r2 j + c3 * nth r3 j := by
  rw [nth_addL _ _ _ (by simp [length_subL, length_addL, length_smulL]; omega)
      (by simp [length_smulL]; omega),
    nth_subL _ _ _ (by simp [length_addL, length_smulL]; omega)
      (by simp [length_smulL]; omega),
    nth_addL _ _ _ (by simp [length_smulL]; omega)
      (by simp [length_smulL]; omega),
    nth_smulL _ _ _ h0, nth_smulL _ _ _ h1, nth_smulL _ _ _ h2,
    nth_smulL _ _ _ h3]

lemma nth_combo2 (r0 r1 r2 r3 : List ℚ) (c0 c1 c2 c3 : ℚ) (j : ℕ)
    (h0 : j < r0.length) (h1 : j < r1.length) (h2 : j < r2.length)
    (h3 : j < r3.length) :
    nth (subL (addL (subL (smulL c0 r0) (smulL c1 r1)) (smulL c2 r2))
      (smulL c3 r3)) j
      = c0 * nth r0 j - c1 * nth r1 j + c2 * nth r2 j - c3 * nth r3 j := by
  rw [nth_subL _ _ _ (by simp [length_subL, length_addL, length_smulL]; omega)
      (by simp [length_smulL]; omega),
    nth_addL _ _ _ (by simp [length_smulL, length_subL]; omega)
      (by simp [length_smulL]; omega),
    nth_subL _ _ _ (by simp [length_smulL]; omega)
      (by simp [length_smulL]; omega),
    nth_smulL _ _ _ h0, nth_smulL _ _ _ h1, nth_smulL _ _ _ h2,
    nth_smulL _ _ _ h3]

end GradientLemmas

/-- C4: on every 1D slice of length at least 5 along the chosen axis,
`gradient` computes exactly the 3rd-order one-sided stencil
`(-11/6)f[i] + 3f[i+1] - (3/2)f[i+2] + (1/3)f[i+3]` at the two left-edge
cells, the 4th-order central stencil
`(1/12)f[i-2] - (2/3)f[i-1] + (2/3)f[i+1] - (1/12)f[i+2]` at every interior
cell, and the mirrored 3rd-order stencil
`(-1/3)f[i-3] + (3/2)f[i-2] - 3f[i-1] + (11/6)f[i]` at the two right-edge
cells; no division by `dx` appears (it is the caller's).  Consequently the
gradient of a constant field is all zeros along either axis. -/
theorem gradient_stencil_spec :
    (∀ (a : Mat) (r : ℕ), r < a.length → 5 ≤ (a.getD r []).length →
      (∀ i, i < 2 → nth2 (gradient a 1) r i =
        -(11/6) * nth (a.getD r []) i + 3 * nth (a.getD r []) (i + 1)
          - (3/2) * nth (a.getD r []) (i + 2) + (1/3) * nth (a.getD r []) (i + 3)) ∧
      (∀ i, 2 ≤ i → i < (a.getD r []).length - 2 → nth2 (gradient a 1) r i =
        (1/12) * nth (a.getD r []) (i - 2) - (2/3) * nth (a.getD r []) (i - 1)
          + (2/3) * nth (a.getD r []) (i + 1) - (1/12) * nth (a.getD r []) (i + 2)) ∧
      (∀ i, (a.getD r []).length - 2 ≤ i → i < (a.getD r []).length →
        nth2 (gradient a 1) r i =
        -(1/3) * nth (a.getD r []) (i - 3) + (3/2) * nth (a.getD r []) (i - 2)
          - 3 * nth (a.getD r []) (i - 1) + (11/6) * nth (a.getD r []) i)) ∧
    (∀ (a : Mat) (H W : ℕ), Rect H W a → 5 ≤ H → ∀ j, j < W →
      (∀ i, i < 2 → nth2 (gradient a 0) i j =
        -(11/6) * nth2 a i j + 3 * nth2 a (i + 1) j - (3/2) * nth2 a (i + 2) j
          + (1/3) * nth2 a (i + 3) j) ∧
      (∀ i, 2 ≤ i → i < H - 2 → nth2 (gradient a 0) i j =
        (1/12) * nth2 a (i - 2) j - (2/3) * nth2 a (i - 1) j
          + (2/3) * nth2 a (i + 1) j - (1/12) * nth2 a (i + 2) j) ∧
      (∀ i, H - 2 ≤ i → i < H → nth2 (gradient a 0) i j =
        -(1/3) * nth2 a (i - 3) j + (3/2) * nth2 a (i - 2) j
          - 3 * nth2 a (i - 1) j + (11/6) * nth2 a i j)) ∧
    (∀ (H W : ℕ) (c : ℚ) (axis : ℕ), 5 ≤ H → 5 ≤ W →
      gradient (uniformM H W c) axis = uniformM H W 0) := by
  refine ⟨?_, ?_, ?_⟩
  · intro a r hr h5
    have hax : gradient a 1 = a.map grad1 := by
      unfold gradient
      norm_num
    have hmap : (a.map grad1).getD r [] = grad1 (a.getD r []) := by
      rw [getD_lt _ _ _ (by simpa using hr), List.getElem_map, getD_lt _ _ _ hr]
    refine ⟨?_, ?_, ?_⟩
    · intro i hi
      rw [nth2, hax, hmap]
      exact grad1_nth_left _ h5 _ hi
    · intro i hi hi'
      rw [nth2, hax, hmap]
      exact grad1_nth_mid _ h5 _ hi hi'
    · intro i hi hi'
      rw [nth2, hax, hmap]
      exact grad1_nth_right _ h5 _ hi hi'
  · intro a H W hR h5 j hj
    have hax : gradient a 0 = grad0 a := by
      unfold gradient
      norm_num
    have hA : a.length = H := hR.1
    refine ⟨?_, ?_, ?_⟩
    · intro i hi
      rw [nth2, hax, grad0_row_left _ (by omega) _ hi,
        nth_combo1 _ _ _ _ _ _ _ _ _ (by rw [rect_row hR _ (by omega)]; omega)
          (by rw [rect_row hR _ (by omega)]; omega)
          (by rw [rect_row hR _ (by omega)]; omega)
          (by rw [rect_row hR _ (by omega)]; omega)]
      rfl
    · intro i hi hi'
      rw [nth2, hax, grad0_row_mid _ (by omega) _ hi (by omega),
        nth_combo2 _ _ _ _ _ _ _ _ _ (by rw [rect_row hR _ (by omega)]; omega)
          (by rw [rect_row hR _ (by omega)]; omega)
          (by rw [rect_row hR _ (by omega)]; omega)
          (by rw [rect_row hR _ (by omega)]; omega)]
      rfl
    · intro i hi hi'
      rw [nth2, hax, grad0_row_right _ (by omega) _ (by omega) (by omega),
        nth_combo1 _ _ _ _ _ _ _ _ _ (by rw [rect_row hR _ (by omega)]; omega)
          (by rw [rect_row hR _ (by omega)]; omega)
          (by rw [rect_row hR _ (by omega)]; omega)
          (by rw [rect_row hR _ (by omega)]; omega)]
      rfl
  · intro H W c axis hH hW
    exact gradient_uniform H W hH hW c axis

/-- Witness for C4 at concrete inputs: the quadratic samples
`f = [0, 1, 4, 9, 16]` along each axis, and a constant field. -/
theorem gradient_stencil_spec_witness :
    nth2 (gradient ([[0, 1, 4, 9, 16]] : Mat) 1) 0 2 = 4 ∧
    nth2 (gradient ([[0], [1], [4], [9], [16]] : Mat) 0) 2 0 = 4 ∧
    gradient (uniformM 5 5 3) 0 = uniformM 5 5 0 := by
  refine ⟨?_, ?_, ?_⟩
  · have h := (gradient_stencil_spec.1 [[0, 1, 4, 9, 16]] 0 (by norm_num)
      (by norm_num)).2.1 2 (by norm_num) (by norm_num)
    rw [h]
    norm_num [nth]
  · have h := (gradient_stencil_spec.2.1 [[0], [1], [4], [9], [16]] 5 1
      (by decide) (by norm_num) 0 (by norm_num)).2.1 2 (by norm_num)
      (by norm_num)
    rw [h]
    norm_num [nth2, nth]
  · exact gradient_stencil_spec.2.2 5 5 3 0 (by norm_num) (by norm_num)

section EntryLemmas

lemma rect_mzip {H W : ℕ} {a b : Mat} (f : ℚ → ℚ → ℚ)
    (ha : Rect H W a) (hb : Rect H W b) : Rect H W (mzip f a b) := by
  obtain ⟨hal, har⟩ := ha
  obtain ⟨hbl, hbr⟩ := hb
  constructor
  · simp [mzip]
    omega
  · intro r hr
    unfold mzip at hr
    rw [List.mem_iff_getElem] at hr
    obtain ⟨i, hilen, hieq⟩ := hr
    rw [List.getElem_zipWith] at hieq
    simp only [List.length_zipWith] at hilen
    rw [← hieq]
    simp only [List.length_zipWith]
    rw [har _ (List.getElem_mem (by omega)), hbr _ (List.getElem_mem (by omega))]
    omega

lemma rect_mmap {H W : ℕ} {a : Mat} (f : ℚ → ℚ)
    (ha : Rect H W a) : Rect H W (mmap f a) := by
  obtain ⟨hal, har⟩ := ha
  constructor
  · simp [mmap]
    omega
  · intro r hr
    unfold mmap at hr
    rw [List.mem_map] at hr
    obtain ⟨r', hmem, rfl⟩ := hr
    simp [har _ hmem]

lemma nth2_mzip {H W : ℕ} (f : ℚ → ℚ → ℚ) {a b : Mat}
    (ha : Rect H W a) (hb : Rect H W b) (i j : ℕ) (hi : i < H) (hj : j < W) :
    nth2 (mzip f a b) i j = f (nth2 a i j) (nth2 b i j) := by
  obtain ⟨hal, har⟩ := ha
  obtain ⟨hbl, hbr⟩ := hb
  unfold nth2 mzip
  have hia : i < a.length := by omega
  have hib : i < b.length := by omega
  rw [getD_lt _ _ _ (by simp only [List.length_zipWith]; omega),
    List.getElem_zipWith, getD_lt a [] i hia, getD_lt b [] i hib]
  have hja : j < (a[i]).length := by
    rw [har _ (List.getElem_mem hia)]
    omega
  have hjb : j < (b[i]).length := by
    rw [hbr _ (List.getElem_mem hib)]
    omega
  rw [nth_lt _ _ (by simp only [List.length_zipWith]; omega),
    List.getElem_zipWith, nth_lt _ _ hja, nth_lt _ _ hjb]

lemma nth2_mmap {H W : ℕ} (f : ℚ → ℚ) {a : Mat}
    (ha : Rect H W a) (i j : ℕ) (hi : i < H) (hj : j < W) :
    nth2 (mmap f a) i j = f (nth2 a i j) := by
  obtain ⟨hal, har⟩ := ha
  unfold nth2 mmap
  have hia : i < a.length := by omega
  rw [getD_lt _ _ _ (by simp only [List.length_map]; omega),
    List.getElem_map, getD_lt a [] i hia]
  have hja : j < (a[i]).length := by
    rw [har _ (List.getElem_mem hia)]
    omega
  rw [nth_lt _ _ (by simp only [List.length_map]; omega),
    List.getElem_map, nth_lt _ _ hja]

lemma zipWith_eq_right (f : ℚ → ℚ → ℚ) (y x : List ℚ)
    (hlen : x.length ≤ y.length)
    (h : ∀ j, j < x.length → f (nth y j) (nth x j) = nth x j) :
    List.zipWith f y x = x := by
  apply List.ext_getElem (by simp; omega)
  intro j h1 h2
  rw [List.getElem_zipWith]
  have := h j h2
  rw [nth_lt _ _ (by omega), nth_lt _ _ h2] at this
  exact this

lemma mzip_eq_right (f : ℚ → ℚ → ℚ) {H W : ℕ} (y x : Mat)
    (hy : Rect H W y) (hx : Rect H W x)
    (h : ∀ i j, i < H → j < W → f (nth2 y i j) (nth2 x i j) = nth2 x i j) :
    mzip f y x = x := by
  obtain ⟨hyl, hyr⟩ := hy
  obtain ⟨hxl, hxr⟩ := hx
  unfold mzip
  apply List.ext_getElem (by simp; omega)
  intro i h1 h2
  rw [List.getElem_zipWith]
  apply zipWith_eq_right
  · rw [hxr _ (List.getElem_mem h2), hyr _ (List.getElem_mem (by omega))]
  · intro j hj
    have hiH : i < H := by omega
    have hjW : j < W := by
      rw [hxr _ (List.getElem_mem h2)] at hj
      exact hj
    have hfix := h i j hiH hjW
    unfold nth2 at hfix
    rw [getD_lt y [] i (by omega), getD_lt x [] i (by omega)] at hfix
    exact hfix

end EntryLemmas

section StimulateLemmas

lemma zipWith_mapped_left {α β : Type} (g : β → α → α) (h : α → β)
    (l : List α) (hid : ∀ a, g (h a) a = a) :
    List.zipWith g (l.map h) l = l := by
  induction l with
  | nil => rfl
  | cons x xs ih => simp [hid, ih]

/-- The combined stimulus field built by `stimulate`'s loop stays
rectangular. -/
lemma stimulated_rect (t : ℚ) {H W : ℕ} :
    ∀ (l : List Stimulus) (acc : Mat), Rect H W acc →
      (∀ s ∈ l, Rect H W s.field) →
      Rect H W (l.foldl (fun acc s =>
        mzip (fun f a =>
          if f * (if activeAt t s.protocol = true then (1 : ℚ) else 0) ≠ 0
          then f else a) s.field acc) acc) := by
  intro l
  induction l with
  | nil => intro acc hacc _; exact hacc
  | cons s rest ih =>
    intro acc hacc hl
    rw [List.foldl_cons]
    exact ih _ (rect_mzip _ (hl s (by simp)) hacc)
      (fun s' hs' => hl s' (by simp [hs']))

/-- Every nonzero cell of the combined stimulus field comes from some
active stimulus with a nonzero magnitude there. -/
lemma stimulated_support (t : ℚ) {H W : ℕ} :
    ∀ (l : List Stimulus) (acc : Mat), Rect H W acc →
      (∀ s ∈ l, Rect H W s.field) → ∀ i j, i < H → j < W →
      nth2 (l.foldl (fun acc s =>
        mzip (fun f a =>
          if f * (if activeAt t s.protocol = true then (1 : ℚ) else 0) ≠ 0
          then f else a) s.field acc) acc) i j ≠ 0 →
      nth2 acc i j ≠ 0 ∨
        ∃ s ∈ l, activeAt t s.protocol = true ∧ nth2 s.field i j ≠ 0 := by
  intro l
  induction l with
  | nil =>
    intro acc _ _ i j _ _ hne
    exact Or.inl (by simpa using hne)
  | cons s rest ih =>
    intro acc hacc hl i j hi hj hne
    rw [List.foldl_cons] at hne
    have hs : Rect H W s.field := hl s (by simp)
    have hstep := ih _ (rect_mzip _ hs hacc)
      (fun s' hs' => hl s' (by simp [hs'])) i j hi hj hne
    rcases hstep with h1 | h2
    · rw [nth2_mzip _ hs hacc i j hi hj] at h1
      by_cases hcond : nth2 s.field i j *
          (if activeAt t s.protocol = true then (1 : ℚ) else 0) ≠ 0
      · rw [if_pos hcond] at h1
        refine Or.inr ⟨s, by simp, ?_, h1⟩
        by_cases hA : activeAt t s.protocol = true
        · exact hA
        · exact absurd (by simp [hA]) hcond
      · rw [if_neg hcond] at h1
        exact Or.inl h1
    · obtain ⟨s', hmem, hact, hf⟩ := h2
      exact Or.inr ⟨s', by simp [hmem], hact, hf⟩

/-- All-zero stimulus fields leave the combined stimulus field all-zero. -/
lemma stimulated_zero (t : ℚ) {H W : ℕ} :
    ∀ (l : List Stimulus) (acc : Mat), Rect H W acc →
      (∀ s ∈ l, Rect H W s.field) →
      (∀ s ∈ l, ∀ i j, i < H → j < W → nth2 s.field i j = 0) →
      (∀ i j, i < H → j < W → nth2 acc i j = 0) →
      ∀ i j, i < H → j < W →
      nth2 (l.foldl (fun acc s =>
        mzip (fun f a =>
          if f * (if activeAt t s.protocol = true then (1 : ℚ) else 0) ≠ 0
          then f else a) s.field acc) acc) i j = 0 := by
  intro l
  induction l with
  | nil =>
    intro acc _ _ _ haz i j hi hj
    exact haz i j hi hj
  | cons s rest ih =>
    intro acc hacc hl hz haz i j hi hj
    rw [List.foldl_cons]
    refine ih _ (rect_mzip _ (hl s (by simp)) hacc)
      (fun s' hs' => hl s' (by simp [hs']))
      (fun s' hs' => hz s' (by simp [hs'])) ?_ i j hi hj
    intro i' j' hi' hj'
    rw [nth2_mzip _ (hl s (by simp)) hacc i' j' hi' hj',
      hz s (by simp) i' j' hi' hj', haz i' j' hi' hj']
    simp

end StimulateLemmas

/-- C1: `stimulate` treats a stimulus as active at time `t` iff
`t >= start` and `(start - t + 1) mod period < duration`; where active it
overwrites the target field at exactly the cells where the stimulus
magnitude is nonzero; for the protocol `(start = 10, duration = 2,
period = 100)` it injects at `t = 10, 11`, does not inject at `t = 9, 12`,
and injects again at `t = 110, 111`. -/
theorem stimulate_protocol_activation :
    (∀ (t : ℚ) (pr : Protocol), activeAt t pr = true ↔
      (pr.start ≤ t ∧ fmod (pr.start - t + 1) pr.period < pr.duration)) ∧
    (∀ (t : ℚ) (X : Mat) (s : Stimulus) (H W i j : ℕ), Rect H W X →
      Rect H W s.field → i < H → j < W →
      nth2 (stimulate t X [s]) i j =
        if activeAt t s.protocol = true ∧ nth2 s.field i j ≠ 0
        then nth2 s.field i j else nth2 X i j) ∧
    (activeAt 10 ⟨10, 2, 100⟩ = true ∧ activeAt 11 ⟨10, 2, 100⟩ = true ∧
     activeAt 9 ⟨10, 2, 100⟩ = false ∧ activeAt 12 ⟨10, 2, 100⟩ = false ∧
     activeAt 110 ⟨10, 2, 100⟩ = true ∧ activeAt 111 ⟨10, 2, 100⟩ = true) := by
  refine ⟨?_, ?_, ?_⟩
  · intro t pr
    simp [activeAt]
  · intro t X s H W i j hX hS hi hj
    have hstim : Rect H W (mzip (fun f a =>
        if f * (if activeAt t s.protocol = true then (1 : ℚ) else 0) ≠ 0
        then f else a) s.field (mmap (fun _ => 0) X)) :=
      rect_mzip _ hS (rect_mmap _ hX)
    unfold stimulate
    simp only [List.foldl_cons, List.foldl_nil]
    rw [nth2_mzip _ hstim hX i j hi hj,
      nth2_mzip _ hS (rect_mmap _ hX) i j hi hj, nth2_mmap _ hX i j hi hj]
    by_cases hA : activeAt t s.protocol = true
    · by_cases hF : nth2 s.field i j = 0
      · simp [hA, hF]
      · simp [hA, hF]
    · simp [hA]
  · refine ⟨?_, ?_, ?_, ?_, ?_, ?_⟩ <;> norm_num [activeAt, fmod]

/-- Witness for C1 at a concrete 1-by-1 grid at the injection time
`t = 10`. -/
theorem stimulate_protocol_activation_witness :
    nth2 (stimulate 10 [[5]] [⟨⟨10, 2, 100⟩, [[3]]⟩]) 0 0 =
      if activeAt 10 (⟨10, 2, 100⟩ : Protocol) = true ∧
          nth2 [[3]] 0 0 ≠ 0
      then nth2 [[3]] 0 0 else nth2 [[5]] 0 0 :=
  stimulate_protocol_activation.2.1 10 [[5]] ⟨⟨10, 2, 100⟩, [[3]]⟩ 1 1 0 0
    (by decide) (by decide) (by decide) (by decide)

/-- C10: `stimulate` differs from its input field only at cells where some
active stimulus has a nonzero magnitude; with no stimuli, or with all-zero
stimulus fields, it returns the field unchanged at every time, active
window or not. -/
theorem stimulate_frame_effect :
    (∀ (t : ℚ) (X : Mat), stimulate t X [] = X) ∧
    (∀ (t : ℚ) (H W : ℕ) (X : Mat) (stimuli : List Stimulus), Rect H W X →
      (∀ s ∈ stimuli, Rect H W s.field) →
      (∀ s ∈ stimuli, ∀ i j, i < H → j < W → nth2 s.field i j = 0) →
      stimulate t X stimuli = X) ∧
    (∀ (t : ℚ) (H W i j : ℕ) (X : Mat) (stimuli : List Stimulus), Rect H W X →
      (∀ s ∈ stimuli, Rect H W s.field) → i < H → j < W →
      nth2 (stimulate t X stimuli) i j ≠ nth2 X i j →
      ∃ s ∈ stimuli, activeAt t s.protocol = true ∧ nth2 s.field i j ≠ 0) := by
  refine ⟨?_, ?_, ?_⟩
  · intro t X
    unfold stimulate
    simp only [List.foldl_nil]
    unfold mzip mmap
    apply zipWith_mapped_left
    intro r
    apply zipWith_mapped_left
    intro x
    simp
  · intro t H W X stimuli hX hR hz
    unfold stimulate
    apply mzip_eq_right _ _ _
      (stimulated_rect t stimuli _ (rect_mmap _ hX) hR) hX
    intro i j hi hj
    rw [stimulated_zero t stimuli _ (rect_mmap _ hX) hR hz
      (fun i' j' hi' hj' => by
        rw [nth2_mmap _ hX i' j' hi' hj']) i j hi hj]
    simp
  · intro t H W i j X stimuli hX hR hi hj hne
    unfold stimulate at hne
    rw [nth2_mzip _ (stimulated_rect t stimuli _ (rect_mmap _ hX) hR) hX
      i j hi hj] at hne
    by_cases hS : nth2 (stimuli.foldl (fun acc s =>
        mzip (fun f a =>
          if f * (if activeAt t s.protocol = true then (1 : ℚ) else 0) ≠ 0
          then f else a) s.field acc) (mmap (fun _ => 0) X)) i j = 0
    · rw [if_neg (by simpa using hS)] at hne
      exact absurd rfl hne
    · have := stimulated_support t stimuli _ (rect_mmap _ hX) hR i j hi hj hS
      rcases this with h1 | h2
      · rw [nth2_mmap _ hX i j hi hj] at h1
        exact absurd rfl h1
      · exact h2

/-- Witness for C10: a singleton all-zero stimulus leaves a concrete
1-by-1 field unchanged. -/
theorem stimulate_frame_effect_witness :
    stimulate 5 [[7]] [⟨⟨0, 1, 10⟩, [[0]]⟩] = [[7]] :=
  stimulate_frame_effect.2.1 5 1 1 [[7]] [⟨⟨0, 1, 10⟩, [[0]]⟩]
    (by decide) (by decide)
    (by
      intro s hs i j hi hj
      rcases Nat.lt_one_iff.mp hi with rfl
      rcases Nat.lt_one_iff.mp hj with rfl
      rcases List.mem_singleton.mp hs with rfl
      decide)

section HeunLemmas

lemma zipWith_congr2 {α β γ : Type} (f g : α → β → γ)
    (h : ∀ a b, f a b = g a b) :
    ∀ (x : List α) (y : List β), List.zipWith f x y = List.zipWith g x y := by
  intro x
  induction x with
  | nil => intro y; rfl
  | cons a as ih =>
    intro y
    cases y with
    | nil => rfl
    | cons b bs => simp [h, ih]

lemma mzip_congr (f g : ℚ → ℚ → ℚ) (h : ∀ a b, f a b = g a b)
    (x y : Mat) : mzip f x y = mzip g x y := by
  unfold mzip
  exact zipWith_congr2 _ _ (fun r s => zipWith_congr2 _ _ h r s) x y

end HeunLemmas

/-- C5: the Heun integrator step is the explicit trapezoidal
predictor-corrector: `k1 = f(state)`, a tentative Euler advance
`predicted = state + dt * k1`, `k2 = f(predicted)`, and the final update
`state + (k1 + k2) / 2 * dt`, where `f` is the derivative assembly `step`. -/
theorem step_heun_trapezoidal (th : ℚ → ℚ) (P : Params) (s : State) (t : ℚ)
    (D : Mat) (stim : List Stimulus) (dt dx : ℚ) :
    step_heun th P s t D stim dt dx =
      (let k1 := step th P s t D stim dx
       let predicted := treeAxpy s k1 dt
       let k2 := step th P predicted t D stim dx
       State.mk
         (mzip (fun a b => a + b / 2 * dt) s.v
           (mzip (fun x y => x + y) k1.v k2.v))
         (mzip (fun a b => a + b / 2 * dt) s.w
           (mzip (fun x y => x + y) k1.w k2.w))
         (mzip (fun a b => a + b / 2 * dt) s.u
           (mzip (fun x y => x + y) k1.u k2.u))) := by
  simp only [step_heun, treeAxpy, addState]
  congr 1 <;> exact mzip_congr _ _ (fun a b => by ring) _ _

/-- C9: both derivative evaluations inside the Heun step are made at the
same time argument `t` (not `t` and `t + dt`), so stimulus activation is
identical in the two stages, and the step equals
`state + (step(state, t) + step(state + dt * step(state, t), t)) * dt / 2`. -/
theorem step_heun_same_time_both_stages (th : ℚ → ℚ) (P : Params)
    (s : State) (t : ℚ) (D : Mat) (stim : List Stimulus) (dt dx : ℚ) :
    step_heun th P s t D stim dt dx =
      treeAxpy s
        (addState (step th P s t D stim dx)
          (step th P (treeAxpy s (step th P s t D stim dx) dt) t D stim dx))
        (dt / 2) := by
  simp only [step_heun]
  rw [show dt * (1 / 2 : ℚ) = dt / 2 by ring]

/-- C2 (spec-modelled): when the adaptive controller runs out of step
budget before reaching the target time, or its step size collapses to a
non-positive value, the result is a reported `failed`, never an `ok`
carrying an unconverged state: every `ok` result carries a time at or past
the target, and with a step budget of at most 1 and a window needing more
than one step the result is always a failure. -/
theorem dopri_reports_failure {σ : Type} (trial : σ → ℚ → ℚ → σ × ℚ)
    (newDt : ℚ → ℚ → ℚ) (n : ℕ) (y : σ) (t dt target : ℚ) :
    (∀ y' t', dopriLoop trial newDt n y t dt target = .ok y' t' →
      target ≤ t') ∧
    (t < target → t + dt < target → n ≤ 1 →
      ∃ y' t', dopriLoop trial newDt n y t dt target = .failed y' t') := by
  constructor
  · induction n generalizing y t dt with
    | zero =>
      intro y' t' h
      unfold dopriLoop at h
      by_cases hc : target ≤ t
      · rw [if_pos hc] at h
        cases h
        exact hc
      · rw [if_neg hc] at h
        cases h
    | succ m ih =>
      intro y' t' h
      unfold dopriLoop at h
      by_cases hc : target ≤ t
      · rw [if_pos hc] at h
        cases h
        exact hc
      · rw [if_neg hc] at h
        by_cases hd : dt ≤ 0
        · rw [if_pos hd] at h
          cases h
        · rw [if_neg hd] at h
          by_cases hr : (trial y t dt).2 ≤ 1
          · rw [if_pos hr] at h
            exact ih _ _ _ _ _ h
          · rw [if_neg hr] at h
            exact ih _ _ _ _ _ h
  · intro h1 h2 h3
    interval_cases n
    · refine ⟨y, t, ?_⟩
      unfold dopriLoop
      rw [if_neg (by linarith)]
    · unfold dopriLoop
      rw [if_neg (by linarith)]
      by_cases hd : dt ≤ 0
      · rw [if_pos hd]
        exact ⟨y, t, rfl⟩
      · rw [if_neg hd]
        by_cases hr : (trial y t dt).2 ≤ 1
        · rw [if_pos hr]
          unfold dopriLoop
          rw [if_neg (by linarith)]
          exact ⟨_, _, rfl⟩
        · rw [if_neg hr]
          unfold dopriLoop
          rw [if_neg (by linarith)]
          exact ⟨_, _, rfl⟩

/-- Witness for C2: a concrete one-step budget over a window requiring
more steps reports failure. -/
theorem dopri_reports_failure_witness :
    (∀ y' t', dopriLoop (fun (y : ℚ) _ _ => (y + 1, 1)) (fun d _ => d) 1
      (0 : ℚ) 0 1 10 = .ok y' t' → (10 : ℚ) ≤ t') ∧
    ((0 : ℚ) < 10 → (0 : ℚ) + 1 < 10 → 1 ≤ 1 →
      ∃ y' t', dopriLoop (fun (y : ℚ) _ _ => (y + 1, 1)) (fun d _ => d) 1
        (0 : ℚ) 0 1 10 = .failed y' t') :=
  dopri_reports_failure (fun (y : ℚ) _ _ => (y + 1, 1)) (fun d _ => d) 1 0 0 1 10

section DriverLemmas

lemma forwardLoop_length (f : State → ℕ → ℕ → State) :
    ∀ (cs : List ℕ) (s : State),
      (forwardLoop f s cs).length = cs.length - 1 := by
  intro cs
  induction cs with
  | nil => intro s; simp [forwardLoop]
  | cons c rest ih =>
    intro s
    cases rest with
    | nil => simp [forwardLoop]
    | cons c2 rest2 =>
      show (forwardLoop f (f s c c2) (c2 :: rest2)).length + 1 = _
      rw [ih (f s c c2)]
      simp

lemma forwardLoop_getD (f : State → ℕ → ℕ → State) :
    ∀ (cs : List ℕ) (s : State) (i : ℕ), i < cs.length - 1 →
      (forwardLoop f s cs).getD i dState =
        integrateWindows f s ((ckptPairs cs).take (i + 1)) := by
  intro cs
  induction cs with
  | nil => intro s i hi; simp at hi
  | cons c rest ih =>
    intro s i hi
    cases rest with
    | nil => simp at hi
    | cons c2 rest2 =>
      have hpair : ckptPairs (c :: c2 :: rest2) =
          (c, c2) :: ckptPairs (c2 :: rest2) := rfl
      cases i with
      | zero =>
        show (f s c c2 :: forwardLoop f (f s c c2) (c2 :: rest2)).getD 0 dState = _
        rw [hpair]
        rfl
      | succ m =>
        show (f s c c2 :: forwardLoop f (f s c c2) (c2 :: rest2)).getD (m + 1)
            dState = _
        rw [hpair, List.getD_cons_succ, ih (f s c c2) m (by simp at hi ⊢; omega),
          List.take_succ_cons]
        rfl

end DriverLemmas

/-- C7: for every checkpoint sequence and every integrator choice, the
driver `forward` calls the integrator over consecutive checkpoint pairs in
order, returns exactly `len(checkpoints) - 1` new states (the initial one
excluded), and its `i`-th returned state is the result of integrating the
first `i + 1` checkpoint windows, i.e. up to checkpoint `i + 1`.  (The
Dormand-Prince member is modelled from the spec, its `ode.py` not being
under `src/`.) -/
theorem forward_checkpoint_states (integ : TimeIntegrator) (th : ℚ → ℚ)
    (P : Params) (s : State) (ckpts : List ℕ) (D : Mat)
    (stim : List Stimulus) (dt dx : ℚ) :
    (forward th P s ckpts D stim dt dx integ).length = ckpts.length - 1 ∧
    ∀ i, i < ckpts.length - 1 →
      (forward th P s ckpts D stim dt dx integ).getD i dState =
        integrateWindows (windowFn th P D stim dt dx integ) s
          ((ckptPairs ckpts).take (i + 1)) := by
  have hfw : forward th P s ckpts D stim dt dx integ =
      forwardLoop (windowFn th P D stim dt dx integ) s ckpts := by
    cases integ <;> rfl
  rw [hfw]
  exact ⟨forwardLoop_length _ _ _, fun i hi => forwardLoop_getD _ _ _ _ hi⟩

/-- Witness for C7: three checkpoints with the Euler integrator on a
concrete tiny configuration give exactly two states, the first being the
first window's integration. -/
theorem forward_checkpoint_states_witness :
    (forward (fun _ => 0) ⟨1, 1, 1, 1, 1, 1, 1, 1, 1, 1, 1, 1, 1, 1⟩
        dState [0, 1, 2] [] [] 1 1 TimeIntegrator.EULER).length = 2 ∧
    (forward (fun _ => 0) ⟨1, 1, 1, 1, 1, 1, 1, 1, 1, 1, 1, 1, 1, 1⟩
        dState [0, 1, 2] [] [] 1 1 TimeIntegrator.EULER).getD 0 dState =
      integrateWindows
        (windowFn (fun _ => 0) ⟨1, 1, 1, 1, 1, 1, 1, 1, 1, 1, 1, 1, 1, 1⟩
          [] [] 1 1 TimeIntegrator.EULER) dState
        ((ckptPairs [0, 1, 2]).take 1) := by
  have h := forward_checkpoint_states TimeIntegrator.EULER (fun _ => 0)
    ⟨1, 1, 1, 1, 1, 1, 1, 1, 1, 1, 1, 1, 1, 1⟩ dState [0, 1, 2] [] [] 1 1
  exact ⟨h.1, h.2 0 (by norm_num)⟩

/-- C8: the simulation entry point `forward_dimensional` checks the
diffusivity shape and every stimulus shape against the computed state grid
shape before building the initial state or running any integration: a
mismatch yields a validation error (and no states), matching shapes yield
exactly the driver's result with no error. -/
theorem forward_dimensional_shape_guard (th : ℚ → ℚ) (P : Params)
    (tissue_size : ℚ × ℚ) (final_time ms_step : ℚ) (D : Mat)
    (stim : List Stimulus) (dt dx : ℚ) (integ : TimeIntegrator) :
    (realsize_to_shape tissue_size dx ≠ shape2 D →
      ∃ msg, forward_dimensional th P tissue_size final_time ms_step D stim
        dt dx integ = .error msg) ∧
    ((∃ s ∈ stim, shape2 s.field ≠ realsize_to_shape tissue_size dx) →
      ∃ msg, forward_dimensional th P tissue_size final_time ms_step D stim
        dt dx integ = .error msg) ∧
    (realsize_to_shape tissue_size dx = shape2 D →
      (∀ s ∈ stim, shape2 s.field = realsize_to_shape tissue_size dx) →
      forward_dimensional th P tissue_size final_time ms_step D stim dt dx
          integ =
        .ok (forward th P (init (realsize_to_shape tissue_size dx))
          (arangeN 0 (ms_to_units final_time dt) (ms_to_units ms_step dt))
          D stim dt dx integ)) := by
  refine ⟨?_, ?_, ?_⟩
  · intro hD
    unfold forward_dimensional
    rw [if_pos hD]
    exact ⟨_, rfl⟩
  · intro hS
    unfold forward_dimensional
    by_cases hD : realsize_to_shape tissue_size dx ≠ shape2 D
    · rw [if_pos hD]
      exact ⟨_, rfl⟩
    · rw [if_neg hD, if_pos]
      · exact ⟨_, rfl⟩
      · obtain ⟨s, hmem, hne⟩ := hS
        intro hall
        rw [List.all_eq_true] at hall
        exact hne (by simpa using hall s hmem)
  · intro hD hall
    unfold forward_dimensional
    rw [if_neg (fun hne => hne hD), if_neg]
    intro hnall
    apply hnall
    rw [List.all_eq_true]
    intro s hs
    simpa using hall s hs

/-- Witness for C8: a 2x2 grid rejects a 1x1 diffusivity and accepts a
matching one. -/
theorem forward_dimensional_shape_guard_witness :
    (∃ msg, forward_dimensional (fun _ => 0)
      ⟨1, 1, 1, 1, 1, 1, 1, 1, 1, 1, 1, 1, 1, 1⟩ (2, 2) 4 1 [[0]] [] 1 1
      TimeIntegrator.EULER = .error msg) ∧
    forward_dimensional (fun _ => 0)
      ⟨1, 1, 1, 1, 1, 1, 1, 1, 1, 1, 1, 1, 1, 1⟩ (2, 2) 4 1
      [[0, 0], [0, 0]] [] 1 1 TimeIntegrator.EULER =
      .ok (forward (fun _ => 0) ⟨1, 1, 1, 1, 1, 1, 1, 1, 1, 1, 1, 1, 1, 1⟩
        (init (realsize_to_shape (2, 2) 1))
        (arangeN 0 (ms_to_units 4 1) (ms_to_units 1 1)) [[0, 0], [0, 0]] []
        1 1 TimeIntegrator.EULER) := by
  constructor
  · exact (forward_dimensional_shape_guard (fun _ => 0) _ (2, 2) 4 1 [[0]]
      [] 1 1 TimeIntegrator.EULER).1
      (by norm_num [realsize_to_shape, shape2]; decide)
  · exact (forward_dimensional_shape_guard (fun _ => 0) _ (2, 2) 4 1
      [[0, 0], [0, 0]] [] 1 1 TimeIntegrator.EULER).2.2
      (by norm_num [realsize_to_shape, shape2]; decide)
      (by intro s hs; simp at hs)

section UniformStep

lemma addM_uniform (H W : ℕ) (x y : ℚ) :
    addM (uniformM H W x) (uniformM H W y) = uniformM H W (x + y) := by
  unfold addM uniformM
  rw [List.zipWith_replicate', addL_replicate]

/-- With all-zero stimulus fields the combined stimulus field of
`stimulate`'s loop stays all-zero. -/
lemma stimFold_uniform0 (t : ℚ) (H W : ℕ) :
    ∀ (l : List Stimulus), (∀ s ∈ l, s.field = uniformM H W 0) →
      l.foldl (fun acc s =>
        mzip (fun f a =>
          if f * (if activeAt t s.protocol = true then (1 : ℚ) else 0) ≠ 0
          then f else a) s.field acc) (uniformM H W 0) = uniformM H W 0 := by
  intro l
  induction l with
  | nil => intro _; rfl
  | cons s rest ih =>
    intro hl
    rw [List.foldl_cons, hl s (by simp), mzip_uniform]
    simp only [zero_mul, ne_eq, not_true_eq_false, ite_self]
    exact ih (fun s' hs' => hl s' (by simp [hs']))

/-- Lemma: `stimulate` is the identity on a uniform field when every stimulus
field is all-zero (in particular when there are no stimuli). -/
lemma stimulate_uniform0 (t : ℚ) (H W : ℕ) (x : ℚ) (l : List Stimulus)
    (hl : ∀ s ∈ l, s.field = uniformM H W 0) :
    stimulate t (uniformM H W x) l = uniformM H W x := by
  unfold stimulate
  have h0 : mmap (fun _ => (0 : ℚ)) (uniformM H W x) = uniformM H W 0 := by
    rw [mmap_uniform]
  rw [h0, stimFold_uniform0 t H W l hl, mzip_uniform]
  simp

/-- On a spatially uniform state with all-zero diffusivity and all-zero
stimulus fields, `step` returns the uniform state of the per-cell reaction
derivative `scalarDeriv`: the diffusion term vanishes and the stimulus
injection is the identity. -/
lemma step_uniform (th : ℚ → ℚ) (P : Params) (H W : ℕ) (hH : 3 ≤ H)
    (hW : 3 ≤ W) (a b c : ℚ) (t dx : ℚ) (stimuli : List Stimulus)
    (hst : ∀ s ∈ stimuli, s.field = uniformM H W 0) :
    step th P ⟨uniformM H W a, uniformM H W b, uniformM H W c⟩ t
      (uniformM H W 0) stimuli dx =
      ⟨uniformM H W (scalarDeriv th P a b c).1,
       uniformM H W (scalarDeriv th P a b c).2.1,
       uniformM H W (scalarDeriv th P a b c).2.2⟩ := by
  have hp : ∀ z : ℚ, pad2 (uniformM H W z) = uniformM (H + 2) (W + 2) z :=
    fun z => pad2_uniform H W (by omega) (by omega) z
  have hg : ∀ (z : ℚ) (ax : ℕ),
      gradient (uniformM (H + 2) (W + 2) z) ax = uniformM (H + 2) (W + 2) 0 :=
    fun z ax => gradient_uniform _ _ (by omega) (by omega) z ax
  have hcrop : ∀ z : ℚ, crop (uniformM (H + 2) (W + 2) z) = uniformM H W z :=
    fun z => crop_uniform H W z
  have hst' : ∀ s' ∈ stimuli.map (fun s => { s with field := pad2 s.field }),
      s'.field = uniformM (H + 2) (W + 2) 0 := by
    intro s' hs'
    rw [List.mem_map] at hs'
    obtain ⟨s, hmem, rfl⟩ := hs'
    show pad2 s.field = _
    rw [hst s hmem, hp]
  unfold step
  simp only [hp, mmap_uniform, mzip_uniform, mzip3_uniform, hg, addM_uniform]
  rw [stimulate_uniform0 _ _ _ _ _ hst']
  simp only [mmap_uniform, mzip_uniform, mzip3_uniform, hg, addM_uniform,
    hcrop]
  congr 1 <;> · simp only [scalarDeriv]; ring_nf

lemma step_euler_uniform (th : ℚ → ℚ) (P : Params) (H W : ℕ) (hH : 3 ≤ H)
    (hW : 3 ≤ W) (x : ℚ × ℚ × ℚ) (t dt dx : ℚ) (stimuli : List Stimulus)
    (hst : ∀ s ∈ stimuli, s.field = uniformM H W 0) :
    step_euler th P (uniformState H W x) t (uniformM H W 0) stimuli dt dx =
      uniformState H W (scalarEuler th P dt x) := by
  unfold step_euler treeAxpy uniformState
  rw [show (⟨uniformM H W x.1, uniformM H W x.2.1, uniformM H W x.2.2⟩ : State)
      = ⟨uniformM H W x.1, uniformM H W x.2.1, uniformM H W x.2.2⟩ from rfl,
    step_uniform th P H W hH hW x.1 x.2.1 x.2.2 t dx stimuli hst]
  simp only [mzip_uniform]
  rfl

lemma step_heun_uniform (th : ℚ → ℚ) (P : Params) (H W : ℕ) (hH : 3 ≤ H)
    (hW : 3 ≤ W) (x : ℚ × ℚ × ℚ) (t dt dx : ℚ) (stimuli : List Stimulus)
    (hst : ∀ s ∈ stimuli, s.field = uniformM H W 0) :
    step_heun th P (uniformState H W x) t (uniformM H W 0) stimuli dt dx =
      uniformState H W (scalarHeun th P dt x) := by
  unfold step_heun treeAxpy addState uniformState
  rw [show (⟨uniformM H W x.1, uniformM H W x.2.1, uniformM H W x.2.2⟩ : State)
      = ⟨uniformM H W x.1, uniformM H W x.2.1, uniformM H W x.2.2⟩ from rfl,
    step_uniform th P H W hH hW x.1 x.2.1 x.2.2 t dx stimuli hst]
  simp only [mzip_uniform]
  rw [step_uniform th P H W hH hW _ _ _ t dx stimuli hst]
  simp only [mzip_uniform]
  rfl

lemma forwardEulerLoop_uniform (th : ℚ → ℚ) (P : Params) (H W : ℕ)
    (hH : 3 ≤ H) (hW : 3 ≤ W) (x : ℚ × ℚ × ℚ) (dt dx : ℚ)
    (stimuli : List Stimulus)
    (hst : ∀ s ∈ stimuli, s.field = uniformM H W 0) :
    ∀ (n t : ℕ),
      (List.range' t n).foldl
        (fun s (i : ℕ) => step_euler th P s (i : ℚ) (uniformM H W 0) stimuli dt dx)
        (uniformState H W x) =
      uniformState H W ((scalarEuler th P dt)^[n] x) := by
  intro n
  induction n generalizing x with
  | zero => intro t; rfl
  | succ m ih =>
    intro t
    rw [List.range'_succ, List.foldl_cons,
      step_euler_uniform th P H W hH hW x _ dt dx stimuli hst, ih _ (t + 1),
      ← Function.iterate_succ_apply]

lemma forwardHeunLoop_uniform (th : ℚ → ℚ) (P : Params) (H W : ℕ)
    (hH : 3 ≤ H) (hW : 3 ≤ W) (x : ℚ × ℚ × ℚ) (dt dx : ℚ)
    (stimuli : List Stimulus)
    (hst : ∀ s ∈ stimuli, s.field = uniformM H W 0) :
    ∀ (n t : ℕ),
      (List.range' t n).foldl
        (fun s (i : ℕ) => step_heun th P s (i : ℚ) (uniformM H W 0) stimuli dt dx)
        (uniformState H W x) =
      uniformState H W ((scalarHeun th P dt)^[n] x) := by
  intro n
  induction n generalizing x with
  | zero => intro t; rfl
  | succ m ih =>
    intro t
    rw [List.range'_succ, List.foldl_cons,
      step_heun_uniform th P H W hH hW x _ dt dx stimuli hst, ih _ (t + 1),
      ← Function.iterate_succ_apply]

end UniformStep

/-- C6: with all-zero stimulus fields and all-zero diffusivity, a
spatially uniform state stays spatially uniform under any number of Euler
or Heun integrator steps: the loops equal the uniform state of the
iterated per-cell dynamics. -/
theorem uniform_state_preserved (th : ℚ → ℚ) (P : Params) (H W : ℕ)
    (hH : 3 ≤ H) (hW : 3 ≤ W) (x : ℚ × ℚ × ℚ) (t t_end : ℕ)
    (stimuli : List Stimulus)
    (hst : ∀ s ∈ stimuli, s.field = uniformM H W 0) (dt dx : ℚ) :
    forwardEulerLoop th P (uniformState H W x) t t_end (uniformM H W 0)
        stimuli dt dx =
      uniformState H W ((scalarEuler th P dt)^[t_end - t] x) ∧
    forwardHeunLoop th P (uniformState H W x) t t_end (uniformM H W 0)
        stimuli dt dx =
      uniformState H W ((scalarHeun th P dt)^[t_end - t] x) := by
  constructor
  · unfold forwardEulerLoop
    exact forwardEulerLoop_uniform th P H W hH hW x dt dx stimuli hst _ t
  · unfold forwardHeunLoop
    exact forwardHeunLoop_uniform th P H W hH hW x dt dx stimuli hst _ t

/-- Witness for C6 on a concrete 3x3 grid over one step of each
integrator. -/
theorem uniform_state_preserved_witness :
    forwardEulerLoop (fun q => q) ⟨1, 1, 1, 1, 1, 1, 1, 1, 1, 1, 1, 1, 1, 1⟩
        (uniformState 3 3 (1, 1, 0)) 0 1 (uniformM 3 3 0) [] 1 1 =
      uniformState 3 3
        ((scalarEuler (fun q => q) ⟨1, 1, 1, 1, 1, 1, 1, 1, 1, 1, 1, 1, 1, 1⟩
          1)^[1] (1, 1, 0)) ∧
    forwardHeunLoop (fun q => q) ⟨1, 1, 1, 1, 1, 1, 1, 1, 1, 1, 1, 1, 1, 1⟩
        (uniformState 3 3 (1, 1, 0)) 0 1 (uniformM 3 3 0) [] 1 1 =
      uniformState 3 3
        ((scalarHeun (fun q => q) ⟨1, 1, 1, 1, 1, 1, 1, 1, 1, 1, 1, 1, 1, 1⟩
          1)^[1] (1, 1, 0)) :=
  uniform_state_preserved (fun q => q) ⟨1, 1, 1, 1, 1, 1, 1, 1, 1, 1, 1, 1, 1, 1⟩
    3 3 (by norm_num) (by norm_num) (1, 1, 0) 0 1 []
    (by intro s hs; simp at hs) 1 1

section RestingDrift

lemma tanhQ_bounds (x : ℚ) : -1 < tanhQ x ∧ tanhQ x < 1 := by
  unfold tanhQ
  have h1 : (0 : ℚ) < 1 + |x| := by positivity
  constructor
  · rw [lt_div_iff h1]
    have := neg_abs_le x
    nlinarith [abs_nonneg x]
  · rw [div_lt_one h1]
    linarith [le_abs_self x]

/-- At a sub-threshold potential (`u < V_c`, so `p = 0`) on the resting
gates `v = w = 1`, the per-cell derivative has zero gating components and
the potential component carries the slow-inward and slow-outward currents
only. -/
lemma scalarDeriv_rest (th : ℚ → ℚ) (P : Params) (u : ℚ)
    (hu : ¬ P.V_c ≤ u) :
    scalarDeriv th P 1 1 u =
      (0, 0, ((1 + th (P.k * (u - P.V_csi))) / (2 * P.tau_si)
        - u / P.tau_0) / P.Cm) := by
  simp only [scalarDeriv, if_neg hu, Prod.mk.injEq]
  refine ⟨?_, ?_, ?_⟩ <;> ring

/-- The resting-state drift invariant: starting from `(v, w, u) = (1, 1, 0)`,
as long as the accumulated drift stays below the excitation threshold the
gating variables stay exactly 1 while the potential stays nonnegative,
bounded by `n * dt / (tau_si * Cm)`, and strictly positive from the first
step on — because `1 + tanh(k (u - V_csi))` is strictly positive. -/
lemma scalarEuler_apply (th : ℚ → ℚ) (P : Params) (dt : ℚ)
    (x : ℚ × ℚ × ℚ) :
    scalarEuler th P dt x =
      (x.1 + (scalarDeriv th P x.1 x.2.1 x.2.2).1 * dt,
       x.2.1 + (scalarDeriv th P x.1 x.2.1 x.2.2).2.1 * dt,
       x.2.2 + (scalarDeriv th P x.1 x.2.1 x.2.2).2.2 * dt) := rfl

lemma euler_rest_invariant (th : ℚ → ℚ) (P : Params) (dt : ℚ)
    (hth : ∀ x, -1 < th x ∧ th x < 1)
    (h0 : 0 < P.tau_0) (hsi : 0 < P.tau_si) (hcm : 0 < P.Cm)
    (hdt : 0 < dt) (hdle : dt ≤ P.tau_0 * P.Cm)
    (hVc : 100 * dt < P.V_c * (P.tau_si * P.Cm)) :
    ∀ n, n ≤ 100 →
      ((scalarEuler th P dt)^[n] (1, 1, 0)).1 = 1 ∧
      ((scalarEuler th P dt)^[n] (1, 1, 0)).2.1 = 1 ∧
      0 ≤ ((scalarEuler th P dt)^[n] (1, 1, 0)).2.2 ∧
      ((scalarEuler th P dt)^[n] (1, 1, 0)).2.2 ≤
        n * dt / (P.tau_si * P.Cm) ∧
      (1 ≤ n → 0 < ((scalarEuler th P dt)^[n] (1, 1, 0)).2.2) := by
  have hM : 0 < P.tau_si * P.Cm := by positivity
  intro n
  induction n with
  | zero =>
    intro _
    refine ⟨rfl, rfl, le_refl 0, by norm_num, by omega⟩
  | succ m ih =>
    intro hm
    obtain ⟨hv, hw, hu0, hub, _⟩ := ih (by omega)
    set u := ((scalarEuler th P dt)^[m] (1, 1, 0)).2.2 with hudef
    have hmle : (m : ℚ) ≤ 100 := by
      exact_mod_cast Nat.le_of_lt_succ (by omega)
    have huVc : u < P.V_c := by
      calc u ≤ m * dt / (P.tau_si * P.Cm) := hub
        _ ≤ 100 * dt / (P.tau_si * P.Cm) := by
            apply (div_le_div_right hM).mpr
            exact mul_le_mul_of_nonneg_right hmle hdt.le
        _ < P.V_c := by
            rw [div_lt_iff hM]
            linarith
    set T := th (P.k * (u - P.V_csi)) with hTdef
    have hTb := hth (P.k * (u - P.V_csi))
    have hcomp : (scalarEuler th P dt)^[m + 1] (1, 1, 0) =
        (1, 1, u + (((1 + T) / (2 * P.tau_si) - u / P.tau_0) / P.Cm) * dt) := by
      rw [Function.iterate_succ_apply', scalarEuler_apply]
      rw [hv, hw, ← hudef, scalarDeriv_rest th P u (not_le.mpr huVc)]
      norm_num
    rw [hcomp]
    have hrw : u + (((1 + T) / (2 * P.tau_si) - u / P.tau_0) / P.Cm) * dt =
        u * (1 - dt / (P.tau_0 * P.Cm)) +
          dt * (1 + T) / (2 * (P.tau_si * P.Cm)) := by
      field_simp
      ring
    have hA : 0 ≤ u * (1 - dt / (P.tau_0 * P.Cm)) := by
      apply mul_nonneg hu0
      rw [sub_nonneg]
      exact (div_le_one (by positivity)).mpr hdle
    have hB : 0 < dt * (1 + T) / (2 * (P.tau_si * P.Cm)) := by
      apply div_pos (mul_pos hdt (by linarith [hTb.1]))
      positivity
    have hC : dt * (1 + T) / (2 * (P.tau_si * P.Cm)) ≤
        dt / (P.tau_si * P.Cm) := by
      rw [div_le_div_iff (by positivity) hM]
      have h2T : (1 + T) ≤ 2 := by
        have := hTb.2
        rw [← hTdef] at this
        linarith
      nlinarith [mul_le_mul_of_nonneg_left h2T (mul_nonneg hdt.le hM.le)]
    have hD : u * (1 - dt / (P.tau_0 * P.Cm)) ≤ u := by
      nlinarith [hu0, div_nonneg hdt.le
        (show (0 : ℚ) ≤ P.tau_0 * P.Cm by positivity)]
    have hE : ((m + 1 : ℕ) : ℚ) * dt / (P.tau_si * P.Cm) =
        (m : ℚ) * dt / (P.tau_si * P.Cm) + dt / (P.tau_si * P.Cm) := by
      push_cast
      ring
    refine ⟨rfl, rfl, ?_, ?_, ?_⟩
    · show (0 : ℚ) ≤ u + (((1 + T) / (2 * P.tau_si) - u / P.tau_0) / P.Cm) * dt
      rw [hrw]
      linarith
    · show u + (((1 + T) / (2 * P.tau_si) - u / P.tau_0) / P.Cm) * dt ≤ _
      rw [hrw, hE]
      linarith
    · intro _
      show (0 : ℚ) < u + (((1 + T) / (2 * P.tau_si) - u / P.tau_0) / P.Cm) * dt
      rw [hrw]
      linarith

lemma nth2_uniform (H W : ℕ) (c : ℚ) (i j : ℕ) (hi : i < H) (hj : j < W) :
    nth2 (uniformM H W c) i j = c := by
  unfold nth2 uniformM
  rw [getD_lt _ _ _ (by simp; omega), List.getElem_replicate]
  exact nth_replicate _ _ _ hj

lemma uniformM_inj {H W : ℕ} (hH : 0 < H) (hW : 0 < W) {a b : ℚ}
    (h : uniformM H W a = uniformM H W b) : a = b := by
  have := congrArg (fun m => nth2 m 0 0) h
  simpa [nth2_uniform H W _ 0 0 hH hW] using this

/-- Starting from the resting state on an all-zero-diffusivity grid with
no stimuli, 100 Euler steps leave both gating fields exactly 1 while the
potential field becomes a uniform strictly positive value bounded by
`100 dt / (tau_si Cm)`. -/
lemma restingDrift (th : ℚ → ℚ) (P : Params) (H W : ℕ) (hH : 3 ≤ H)
    (hW : 3 ≤ W) (dt dx : ℚ) (hth : ∀ x, -1 < th x ∧ th x < 1)
    (h0 : 0 < P.tau_0) (hsi : 0 < P.tau_si) (hcm : 0 < P.Cm)
    (hdt : 0 < dt) (hdle : dt ≤ P.tau_0 * P.Cm)
    (hVc : 100 * dt < P.V_c * (P.tau_si * P.Cm)) :
    ∃ u100 : ℚ, 0 < u100 ∧ u100 ≤ 100 * dt / (P.tau_si * P.Cm) ∧
      forwardEulerLoop th P (init (H, W)) 0 100 (uniformM H W 0) [] dt dx =
        ⟨uniformM H W 1, uniformM H W 1, uniformM H W u100⟩ := by
  obtain ⟨hv, hw, hu0, hub, hupos⟩ := euler_rest_invariant th P dt hth h0 hsi
    hcm hdt hdle hVc 100 (le_refl 100)
  refine ⟨((scalarEuler th P dt)^[100] (1, 1, 0)).2.2,
    hupos (by norm_num), by simpa using hub, ?_⟩
  have hinit : init (H, W) = uniformState H W (1, 1, 0) := rfl
  unfold forwardEulerLoop
  rw [hinit, Nat.sub_zero]
  rw [forwardEulerLoop_uniform th P H W hH hW (1, 1, 0) dt dx []
    (by intro s hs; simp at hs) 100 0]
  unfold uniformState
  rw [hv, hw]

end RestingDrift

/-- C3 (corrected): on a 16x16 grid with zero diffusivity, no stimuli and
any physically sensible cell parameters (positive time constants and
membrane capacitance, `dt = 0.01` no larger than `tau_0 * Cm`, excitation
threshold above the accumulated drift bound `1/(tau_si*Cm)`), 100 Euler
steps from the resting state `init` leave `v = 1` and `w = 1` exactly but
drive `u` to a strictly positive uniform value: the resting state is NOT
an exact fixed point of the derivative, because the slow-inward current
`-(1 + tanh(k (0 - V_csi)))/(2 tau_si)` is strictly negative (tanh never
attains -1). -/
theorem resting_state_drift (th : ℚ → ℚ) (P : Params) (dx : ℚ)
    (hth : ∀ x, -1 < th x ∧ th x < 1)
    (h0 : 0 < P.tau_0) (hsi : 0 < P.tau_si) (hcm : 0 < P.Cm)
    (hdle : (1 : ℚ) / 100 ≤ P.tau_0 * P.Cm)
    (hVc : 1 < P.V_c * (P.tau_si * P.Cm)) :
    ∃ u100 : ℚ, 0 < u100 ∧
      forwardEulerLoop th P (init (16, 16)) 0 100 (uniformM 16 16 0) []
        (1 / 100) dx =
        ⟨uniformM 16 16 1, uniformM 16 16 1, uniformM 16 16 u100⟩ := by
  obtain ⟨u, hp, _, heq⟩ := restingDrift th P 16 16 (by norm_num)
    (by norm_num) (1 / 100) dx hth h0 hsi hcm (by norm_num) hdle
    (by
      have h1 : (100 : ℚ) * (1 / 100) = 1 := by norm_num
      linarith)
  exact ⟨u, hp, heq⟩

/-- Counterexample to C3 as stated: with the FK-style parameter set and a
strictly bounded tanh, 100 Euler steps at `dt = 0.01` from the resting
state do NOT return `v = 1, w = 1, u = 0` exactly — the potential field is
strictly positive. -/
theorem resting_state_not_exact_fixed_point :
    forwardEulerLoop tanhQ
      ⟨13/100, 1/25, 17/20, 1/4, 25/2, 100/3, 29, 98/5, 1250, 10/3, 41,
        870, 10, 1⟩
      (init (16, 16)) 0 100 (uniformM 16 16 0) [] (1 / 100) 1 ≠
      ⟨uniformM 16 16 1, uniformM 16 16 1, uniformM 16 16 0⟩ := by
  obtain ⟨u, hp, _, heq⟩ := restingDrift tanhQ
    ⟨13/100, 1/25, 17/20, 1/4, 25/2, 100/3, 29, 98/5, 1250, 10/3, 41,
      870, 10, 1⟩
    16 16 (by norm_num) (by norm_num) (1 / 100) 1 tanhQ_bounds
    (by norm_num : (0 : ℚ) < 25/2) (by norm_num : (0 : ℚ) < 29)
    (by norm_num : (0 : ℚ) < 1) (by norm_num)
    (by norm_num : (1 / 100 : ℚ) ≤ 25/2 * 1)
    (by norm_num : (100 : ℚ) * (1 / 100) < 13/100 * (29 * 1))
  rw [heq]
  intro hcon
  have h3 : uniformM 16 16 u = uniformM 16 16 0 := congrArg State.u hcon
  have := uniformM_inj (by norm_num) (by norm_num) h3
  linarith

/-- Witness for C3 (amended) at the concrete FK-style parameters and the
rational sigmoid `tanhQ`. -/
theorem resting_state_drift_witness :
    ∃ u100 : ℚ, 0 < u100 ∧
      forwardEulerLoop tanhQ
        ⟨13/100, 1/25, 17/20, 1/4, 25/2, 100/3, 29, 98/5, 1250, 10/3, 41,
          870, 10, 1⟩
        (init (16, 16)) 0 100 (uniformM 16 16 0) [] (1 / 100) 1 =
        ⟨uniformM 16 16 1, uniformM 16 16 1, uniformM 16 16 u100⟩ :=
  resting_state_drift tanhQ
    ⟨13/100, 1/25, 17/20, 1/4, 25/2, 100/3, 29, 98/5, 1250, 10/3, 41,
      870, 10, 1⟩ 1 tanhQ_bounds
    (by norm_num : (0 : ℚ) < 25/2) (by norm_num : (0 : ℚ) < 29)
    (by norm_num : (0 : ℚ) < 1)
    (by norm_num : (1 / 100 : ℚ) ≤ 25/2 * 1)
    (by norm_num : (1 : ℚ) < 13/100 * (29 * 1))

end Cardiax
